import Mathlib

/-!
# Verification of the miband resource container codec

Shallow embedding of `miband_res_hack.py`: the fixed-layout struct codec
(`HeaderParser`, `TOCParser`, `ImageHeaderParser`, `PaletteParser`), the bit
packer (`Bitwriter`) and unpacker (`bitwalker` / `chunkwise` / `bits_to_int`),
the palette image codec (`convert_palette_image_to_png`,
`convert_png_image_to_palette_image`), and the container orchestration
(`parse_res_file`, `repack_res_file`).

Modelling conventions:
* a byte stream is a `List Nat` of values `< 256` (range hypotheses are stated
  where a theorem needs them);
* Python exceptions (`struct.error`, short-read checks, `array('B')` overflow,
  PIL index errors) are modelled with `Except Unit` / `Option`;
* multi-byte integers use little-endian order; the source uses `'<I'` for TOC
  entries and native order (little-endian on the deployment targets) for the
  other integer fields;
* the PIL mode-`P` image together with its lossless PNG round trip is the
  external interchange collaborator; it is modelled by `PILImage`, which keeps
  exactly the dimensions, per-pixel palette indices, and flat RGB palette that
  the code reads and writes through it.
-/

namespace MibandResHack

/-! ## Bit-level helper used only in statements and proofs -/

/-- MSB-first list of the low `w` bits of `v` (each element is `0` or `1`). -/
def natBits : Nat → Nat → List Nat
  | 0, _ => []
  | w + 1, v => natBits w (v >>> 1) ++ [v &&& 1]

/-! ## Source embedding: bit unpacking -/

/-- Inner loop of `bitwalker` for a single byte:
`for bitpos in range(7, -1, -1): yield (byte & (1 << bitpos)) >> bitpos`. -/
def bitwalkerByte (byte : Nat) : List Nat :=
  (List.range 8).map (fun i => (byte &&& (1 <<< (7 - i))) >>> (7 - i))

/-- `bitwalker(byte_data)`: all bits of the buffer, MSB-first in each byte. -/
def bitwalker (byte_data : List Nat) : List Nat :=
  (byte_data.map bitwalkerByte).flatten

/-- The loop body of `chunkwise`: accumulate into `chunk`, yield it once it has
`count` elements, and yield the final partial chunk (if non-empty) at the end.
With `count = 0` the test `len(chunk) == count` never fires, so the whole input
comes out as one final chunk. -/
def chunkwiseAux (count : Nat) : List α → List α → List (List α)
  | chunk, [] => if chunk.isEmpty then [] else [chunk]
  | chunk, i :: rest =>
    let chunk' := chunk ++ [i]
    if chunk'.length = count then chunk' :: chunkwiseAux count [] rest
    else chunkwiseAux count chunk' rest

/-- `chunkwise(count, iterable)`. -/
def chunkwise (count : Nat) (l : List α) : List (List α) := chunkwiseAux count [] l

/-- `bits_to_int(bits)`: `retval += bit << idx` over `enumerate(bits[::-1])`. -/
def bits_to_int (bits : List Nat) : Nat :=
  (bits.reverse.enum).foldl (fun retval p => retval + (p.2 <<< p.1)) 0

/-! ## Source embedding: `Bitwriter` -/

structure Bitwriter where
  bytes : List Nat
  last_byte : Option Nat
  pos : Nat
  deriving DecidableEq, Repr

/-- `Bitwriter()` constructor state. -/
def Bitwriter.init : Bitwriter := ⟨[], none, 0⟩

/-- `Bitwriter.add(number, bits)`; faithful to the source: the accumulator is
shifted left and or-ed (no masking of `number`), and once 8 or more bits have
accumulated the whole accumulator is appended and reset to `0` (not `None`). -/
def Bitwriter.add (w : Bitwriter) (number bits : Nat) : Bitwriter :=
  let lb := (w.last_byte.getD 0) <<< bits ||| number
  let pos := w.pos + bits
  if 8 ≤ pos then { bytes := w.bytes ++ [lb], last_byte := some 0, pos := 0 }
  else { bytes := w.bytes, last_byte := some lb, pos := pos }

/-- `Bitwriter.build()`: left-align a pending partial byte, then
`array('B', ...).tobytes()`, which raises when an entry exceeds 255. -/
def Bitwriter.build (w : Bitwriter) : Except Unit (List Nat) :=
  let l : List Nat :=
    match w.last_byte with
    | none => w.bytes
    | some lb => w.bytes ++ [lb <<< (8 - w.pos)]
  if l.all (· < 256) then .ok l else .error ()

/-- One packed row as produced by the encode loop: `bitwriter.add(v, bits)` for
each value in order, then `bitwriter.build()`. -/
def packRow (vals : List Nat) (bits : Nat) : Except Unit (List Nat) :=
  (vals.foldl (fun w n => w.add n bits) Bitwriter.init).build

/-- Proof-side name for the fold of `Bitwriter.add` over a list of values. -/
def addAll (w : Bitwriter) (vals : List Nat) (bits : Nat) : Bitwriter :=
  vals.foldl (fun w n => w.add n bits) w

/-- Proof-side accumulator characterisation: the value built by repeated
`acc <<= bits; acc |= v`. -/
def hornerExt (bits a : Nat) (g : List Nat) : Nat :=
  g.foldl (fun acc v => acc <<< bits ||| v) a

/-- One decoded row, as in `convert_palette_image_to_png`: chunk the bit stream
into `bits`-wide groups and stop once `width` pixels have been produced (the
source breaks when `x > width - 1`, i.e. when `x ≥ width` over the integers). -/
def unpackRow (row_data : List Nat) (width bits : Nat) : List Nat :=
  ((chunkwise bits (bitwalker row_data)).take width).map bits_to_int

/-! ## Source embedding: fixed-layout records -/

/-- Little-endian `'H'` read from the first two bytes of a slice. -/
def readU16LE (l : List Nat) : Nat := l.getD 0 0 + 256 * l.getD 1 0

/-- Little-endian `'I'` / `'<I'` read from the first four bytes of a slice. -/
def readU32LE (l : List Nat) : Nat :=
  l.getD 0 0 + 256 * l.getD 1 0 + 65536 * l.getD 2 0 + 16777216 * l.getD 3 0

/-- Little-endian `'H'` write (`struct.pack` checks the range separately). -/
def packU16LE (v : Nat) : List Nat := [v % 256, v / 256 % 256]

/-- Little-endian `'I'` / `'<I'` write. -/
def packU32LE (v : Nat) : List Nat :=
  [v % 256, v / 256 % 256, v / 65536 % 256, v / 16777216 % 256]

/-- `Parser._read_buffer`: read exactly `n` bytes from the stream or raise. -/
def read_buffer (n : Nat) (s : List Nat) : Except Unit (List Nat × List Nat) :=
  let d := s.take n
  if d.length = n then .ok (d, s.drop n) else .error ()

structure HeaderContainer where
  sig : List Nat
  version : Nat
  stuff : List Nat
  res_count : Nat
  deriving DecidableEq, Repr

namespace HeaderParser

/-- `format = [(5, '5B'), (1, 'B'), (10, '10B'), (4, 'I')]`. -/
def get_total_bytes : Nat := 20

/-- `Parser.parse_data` for the header: every slice must have its full declared
width, which for a flat record means at least 20 bytes of input. -/
def parse_data (data : List Nat) : Option HeaderContainer :=
  if 20 ≤ data.length then
    some { sig := data.take 5
           version := data.getD 5 0
           stuff := (data.drop 6).take 10
           res_count := readU32LE (data.drop 16) }
  else none

/-- `Parser.build_bytes` for the header; `struct.pack` raises when a field is
out of range or a tuple field has the wrong arity. -/
def build_bytes (h : HeaderContainer) : Except Unit (List Nat) :=
  if h.sig.length = 5 ∧ h.sig.all (· < 256) ∧ h.version < 256 ∧
      h.stuff.length = 10 ∧ h.stuff.all (· < 256) ∧ h.res_count < 4294967296 then
    .ok (h.sig ++ [h.version] ++ h.stuff ++ packU32LE h.res_count)
  else .error ()

/-- `Parser.read`: `_read_buffer` then `parse_data`. -/
def read (s : List Nat) : Except Unit (HeaderContainer × List Nat) := do
  let (d, s') ← read_buffer 20 s
  match parse_data d with
  | some h => .ok (h, s')
  | none => .error ()

end HeaderParser

structure TOCEntry where
  abs_offset : Nat
  deriving DecidableEq, Repr

namespace TOCParser

/-- `format = [(4, '<I')]`. -/
def get_total_bytes : Nat := 4

def parse_data (data : List Nat) : Option TOCEntry :=
  if 4 ≤ data.length then some ⟨readU32LE data⟩ else none

def build_bytes (e : TOCEntry) : Except Unit (List Nat) :=
  if e.abs_offset < 4294967296 then .ok (packU32LE e.abs_offset) else .error ()

def read (s : List Nat) : Except Unit (TOCEntry × List Nat) := do
  let (d, s') ← read_buffer 4 s
  match parse_data d with
  | some e => .ok (e, s')
  | none => .error ()

end TOCParser

structure ImageHeader where
  sig : List Nat
  width : Nat
  height : Nat
  row_length : Nat
  bits_per_pixel : Nat
  palette_colors : Nat
  transparency : Nat
  deriving DecidableEq, Repr

namespace ImageHeaderParser

/-- `format = [(4, '4B'), (2, 'H'), (2, 'H'), (2, 'H'), (2, 'H'), (2, 'H'), (2, 'H')]`. -/
def get_total_bytes : Nat := 16

def parse_data (data : List Nat) : Option ImageHeader :=
  if 16 ≤ data.length then
    some { sig := data.take 4
           width := readU16LE (data.drop 4)
           height := readU16LE (data.drop 6)
           row_length := readU16LE (data.drop 8)
           bits_per_pixel := readU16LE (data.drop 10)
           palette_colors := readU16LE (data.drop 12)
           transparency := readU16LE (data.drop 14) }
  else none

def build_bytes (h : ImageHeader) : Except Unit (List Nat) :=
  if h.sig.length = 4 ∧ h.sig.all (· < 256) ∧ h.width < 65536 ∧ h.height < 65536 ∧
      h.row_length < 65536 ∧ h.bits_per_pixel < 65536 ∧ h.palette_colors < 65536 ∧
      h.transparency < 65536 then
    .ok (h.sig ++ packU16LE h.width ++ packU16LE h.height ++ packU16LE h.row_length ++
      packU16LE h.bits_per_pixel ++ packU16LE h.palette_colors ++ packU16LE h.transparency)
  else .error ()

end ImageHeaderParser

structure PaletteData where
  r : Nat
  g : Nat
  b : Nat
  pad : Nat
  deriving DecidableEq, Repr

namespace PaletteParser

/-- `format = [(1, 'B'), (1, 'B'), (1, 'B'), (1, 'B')]`. -/
def get_total_bytes : Nat := 4

def parse_data (data : List Nat) : Option PaletteData :=
  if 4 ≤ data.length then
    some ⟨data.getD 0 0, data.getD 1 0, data.getD 2 0, data.getD 3 0⟩
  else none

def build_bytes (p : PaletteData) : Except Unit (List Nat) :=
  if p.r < 256 ∧ p.g < 256 ∧ p.b < 256 ∧ p.pad < 256 then
    .ok [p.r, p.g, p.b, p.pad]
  else .error ()

def read (s : List Nat) : Except Unit (PaletteData × List Nat) := do
  let (d, s') ← read_buffer 4 s
  match parse_data d with
  | some p => .ok (p, s')
  | none => .error ()

end PaletteParser

/-! ## Source embedding: palette image codec -/

/-- Abstract interchange raster: a PIL mode-`P` image (plus its lossless PNG
serialisation, which the spec treats as an external collaborator).  `pixels`
holds `height` rows of `width` palette indices; `palette` is the flat RGB
table as exposed by `getpalette` / consumed by `putpalette`. -/
structure PILImage where
  width : Nat
  height : Nat
  pixels : List (List Nat)
  palette : List Nat
  deriving DecidableEq, Repr

/-- `im.getpixel((x, y))`: raises when the coordinate is outside the image. -/
def PILImage.getpixel (im : PILImage) (x y : Nat) : Except Unit Nat :=
  if x < im.width ∧ y < im.height then .ok ((im.pixels.getD y []).getD x 0) else .error ()

/-- `[PaletteParser.read(img_buf) for _ in range(n)]`: sequential 4-byte reads. -/
def readPalette : Nat → List Nat → Except Unit (List PaletteData × List Nat)
  | 0, s => .ok ([], s)
  | n + 1, s => do
    let (p, s') ← PaletteParser.read s
    let (ps, s'') ← readPalette n s'
    .ok (p :: ps, s'')

/-- Proof-side description of the palette entries read by `readPalette`: the
`i`-th entry is the 4-byte slice at offset `4 * i`. -/
def paletteSlices : Nat → List Nat → List PaletteData
  | 0, _ => []
  | n + 1, s =>
    ⟨s.getD 0 0, s.getD 1 0, s.getD 2 0, s.getD 3 0⟩ :: paletteSlices n (s.drop 4)

/-- `convert_palette_image_to_png`: read `palette_colors` palette entries, then
`height` rows of `row_length` bytes, unpacking `width` pixels per row.
`Image.new('P', ...)` zero-initialises pixels, so pixels not written by a
(short) row stay `0`; sequential `read(row_length)` calls are the successive
`row_length`-byte slices of the remaining buffer, clamped at end-of-stream.
The final PNG serialisation is the identity on the abstract raster. -/
def convert_palette_image_to_png (image_info : ImageHeader) (image_data : List Nat) :
    Except Unit PILImage := do
  let width := image_info.width
  let height := image_info.height
  let (pal, rest) ← readPalette image_info.palette_colors image_data
  let raw_palette := (pal.map (fun p => [p.r, p.g, p.b])).flatten
  let pixels := (List.range height).map (fun y =>
    let row_data := (rest.drop (y * image_info.row_length)).take image_info.row_length
    let vals := unpackRow row_data width image_info.bits_per_pixel
    vals ++ List.replicate (width - vals.length) 0)
  .ok { width := width, height := height, pixels := pixels, palette := raw_palette }

/-- The `ImageHeader` record assembled by `convert_png_image_to_palette_image`:
`sig`, `row_length`, `bits_per_pixel`, `transparency` come from the original
header; `width`, `height` from the raster; `palette_colors` from the raster's
palette table truncated to the original `palette_colors * 3` values. -/
def encodeHeader (im : PILImage) (original_image_info : ImageHeader) : ImageHeader :=
  let raw_palette := im.palette.take (original_image_info.palette_colors * 3)
  { sig := original_image_info.sig
    width := im.width
    height := im.height
    row_length := original_image_info.row_length
    bits_per_pixel := original_image_info.bits_per_pixel
    palette_colors := raw_palette.length / 3
    transparency := original_image_info.transparency }

/-- The palette serialisation loop of `convert_png_image_to_palette_image`:
`PaletteParser.build_bytes(PaletteData(r, g, b, 0)) for r, g, b in
chunkwise(3, raw_palette)`; a chunk that is not an `r, g, b` triple fails the
tuple unpacking. -/
def encodePalette (raw_palette : List Nat) : Except Unit (List (List Nat)) :=
  (chunkwise 3 raw_palette).mapM (fun c =>
    match c with
    | [r, g, b] => PaletteParser.build_bytes ⟨r, g, b, 0⟩
    | _ => .error ())

/-- The row loop of `convert_png_image_to_palette_image`: for each of `height`
rows pack `width` pixels read with `getpixel`, then truncate to `row_length`
bytes.  The dead `if x >= width` branch is kept from the source. -/
def encodeRows (im : PILImage) (original_image_info : ImageHeader) :
    Except Unit (List (List Nat)) :=
  (List.range original_image_info.height).mapM (fun y => do
    let vals ← (List.range original_image_info.width).mapM (fun x =>
      if original_image_info.width ≤ x then pure 0 else im.getpixel x y)
    let row ← packRow vals original_image_info.bits_per_pixel
    pure (row.take original_image_info.row_length))

/-- `convert_png_image_to_palette_image`: rebuild the header (palette size from
the palette truncated to the original count), serialise the palette with a zero
pad byte, and pack each of `original_image_info.height` rows of
`original_image_info.width` pixels, truncating each built row to `row_length`
bytes. -/
def convert_png_image_to_palette_image (im : PILImage)
    (original_image_info : ImageHeader) : Except Unit (List Nat) := do
  let raw_palette := im.palette.take (original_image_info.palette_colors * 3)
  let header_data ← ImageHeaderParser.build_bytes (encodeHeader im original_image_info)
  let palette_parts ← encodePalette raw_palette
  let image_rows ← encodeRows im original_image_info
  pure (header_data ++ palette_parts.flatten ++ image_rows.flatten)

/-! ## Source embedding: container orchestration -/

structure Resource where
  image_info : ImageHeader
  image_data : List Nat
  /-- numeric index used for the interchange file name `f'{idx}.png'`. -/
  filename : Nat
  deriving DecidableEq, Repr

/-- `parse_resource`: parse the image header from the slice prefix, keep the
rest as raw payload.  The source also rebuilds the header bytes (an unused
local), which is kept because it runs and can raise. -/
def parse_resource (data : List Nat) (idx : Nat) : Except Unit Resource :=
  match ImageHeaderParser.parse_data data with
  | none => .error ()
  | some image_info => do
    let image_data := data.drop ImageHeaderParser.get_total_bytes
    let _rebuild ← ImageHeaderParser.build_bytes image_info
    .ok { image_info := image_info, image_data := image_data, filename := idx }

structure ResFile where
  header : HeaderContainer
  toc : List TOCEntry
  resources : List Resource
  deriving DecidableEq, Repr

/-- `BytesIO.read(n)`: at most `n` bytes; a negative count reads to the end. -/
def streamRead (s : List Nat) (n : Int) : List Nat × List Nat :=
  if n < 0 then (s, []) else (s.take n.toNat, s.drop n.toNat)

/-- The TOC loop: `for _ in range(header.res_count): toc.append(TOCParser.read(buffer))`. -/
def readTOC : Nat → List Nat → Except Unit (List TOCEntry × List Nat)
  | 0, s => .ok ([], s)
  | n + 1, s => do
    let (e, s') ← TOCParser.read s
    let (es, s'') ← readTOC n s'
    .ok (e :: es, s'')

/-- The resource loop of `parse_res_file` over `toc[1:]`, starting with
`prev_abs_offset = 0`: `resource_len = entry.abs_offset - prev_abs_offset`
(signed), then `parse_resource(buffer.read(resource_len), idx)`. -/
def readResources : List TOCEntry → Int → Nat → List Nat →
    Except Unit (List Resource × List Nat)
  | [], _, _, s => .ok ([], s)
  | e :: rest, prev_abs_offset, idx, s => do
    let resource_len : Int := (e.abs_offset : Int) - prev_abs_offset
    let (d, s') := streamRead s resource_len
    let r ← parse_resource d idx
    let (rs, s'') ← readResources rest (e.abs_offset : Int) (idx + 1) s'
    .ok (r :: rs, s'')

/-- `parse_res_file`. -/
def parse_res_file (s : List Nat) : Except Unit ResFile := do
  let (header, s₁) ← HeaderParser.read s
  let (toc, s₂) ← readTOC header.res_count s₁
  let (rs, s₃) ← readResources (toc.drop 1) 0 0 s₂
  let last ← parse_resource s₃ toc.length
  .ok { header := header, toc := toc, resources := rs ++ [last] }

/-- `repack_res_file`: write the header and TOC back, then re-encode each
resource from its numbered interchange raster (the rasters read from disk are a
parameter of the model, one per resource). -/
def repack_res_file (resfile : ResFile) (png_images : List PILImage) :
    Except Unit (List Nat) := do
  let hd ← HeaderParser.build_bytes resfile.header
  let tocs ← resfile.toc.mapM TOCParser.build_bytes
  let imgs ← (resfile.resources.zip png_images).mapM
    (fun p => convert_png_image_to_palette_image p.2 p.1.image_info)
  pure (hd ++ tocs.flatten ++ imgs.flatten)

/-! ## Toolkit: bit arithmetic -/

lemma lor_shift (b : Nat) : ∀ a v : Nat, v < 2 ^ b → a <<< b ||| v = a * 2 ^ b + v := by
  induction b with
  | zero =>
    intro a v hv
    interval_cases v
    simp
  | succ b ih =>
    intro a v hv
    have h7 : 2 ^ (b + 1) = 2 * 2 ^ b := by rw [Nat.pow_succ]; omega
    have hv2 : v / 2 < 2 ^ b := by omega
    have hpar : (2 * (a <<< b) ||| v) % 2 = v % 2 := by
      rcases Nat.mod_two_eq_zero_or_one v with h | h
      · have h0 : ¬((2 * (a <<< b) ||| v) % 2 = 1) := by
          rw [Nat.or_mod_two_eq_one]
          omega
        omega
      · have h0 : (2 * (a <<< b) ||| v) % 2 = 1 := by
          rw [Nat.or_mod_two_eq_one]
          omega
        omega
    have hdiv : (2 * (a <<< b) ||| v) / 2 = a <<< b ||| v / 2 := by
      rw [Nat.or_div_two]
      congr 1
      omega
    have hdm := Nat.div_add_mod (2 * (a <<< b) ||| v) 2
    have hih := ih a (v / 2) hv2
    have hs : a <<< (b + 1) = 2 * (a <<< b) := Nat.shiftLeft_succ a b
    have hgoal : a * 2 ^ (b + 1) = 2 * (a * 2 ^ b) := by rw [h7]; ring
    rw [hs]
    omega

lemma shiftRight_one_eq (x : Nat) : x >>> 1 = x / 2 := rfl

/-! ## Toolkit: `natBits` -/

@[simp] lemma natBits_length (w : Nat) : ∀ v, (natBits w v).length = w := by
  induction w with
  | zero => intro v; rfl
  | succ w ih => intro v; simp [natBits, ih]

lemma natBits_mem_lt (w : Nat) : ∀ v, ∀ x ∈ natBits w v, x < 2 := by
  induction w with
  | zero => intro v x hx; simp [natBits] at hx
  | succ w ih =>
    intro v x hx
    simp only [natBits, List.mem_append, List.mem_singleton] at hx
    rcases hx with hx | hx
    · exact ih _ x hx
    · subst hx
      have : v &&& 1 = v % 2 := Nat.and_one_is_mod v
      omega

lemma natBits_zero_val (w : Nat) : natBits w 0 = List.replicate w 0 := by
  induction w with
  | zero => rfl
  | succ w ih =>
    have : List.replicate (w + 1) (0 : Nat) = List.replicate w 0 ++ [0] :=
      List.replicate_succ' ..
    simp [natBits, ih, this]

lemma natBits_split (n : Nat) : ∀ m x : Nat, natBits (n + m) x = natBits n (x >>> m) ++ natBits m x := by
  intro m
  induction m with
  | zero => intro x; simp [natBits]
  | succ m ih =>
    intro x
    have h1 : x >>> 1 >>> m = x >>> (m + 1) := by
      rw [← Nat.shiftRight_add]
      congr 1
      omega
    show natBits (n + m) (x >>> 1) ++ [x &&& 1] = natBits n (x >>> (m + 1)) ++ natBits (m + 1) x
    rw [ih (x >>> 1), h1]
    show _ = natBits n (x >>> (m + 1)) ++ (natBits m (x >>> 1) ++ [x &&& 1])
    rw [List.append_assoc]

lemma natBits_mod (w : Nat) : ∀ x, natBits w (x % 2 ^ w) = natBits w x := by
  induction w with
  | zero => intro x; rfl
  | succ w ih =>
    intro x
    have h7 : 2 ^ (w + 1) = 2 * 2 ^ w := by
      rw [Nat.pow_succ]; omega
    have hdiv : (x % 2 ^ (w + 1)) >>> 1 = (x >>> 1) % 2 ^ w := by
      rw [shiftRight_one_eq, shiftRight_one_eq, h7]
      exact Nat.mod_mul_right_div_self x 2 (2 ^ w)
    have hmod : (x % 2 ^ (w + 1)) &&& 1 = x &&& 1 := by
      rw [Nat.and_one_is_mod, Nat.and_one_is_mod, h7]
      exact Nat.mod_mod_of_dvd x ⟨2 ^ w, rfl⟩
    show natBits w ((x % 2 ^ (w + 1)) >>> 1) ++ [(x % 2 ^ (w + 1)) &&& 1] = _
    rw [hdiv, hmod, ih (x >>> 1)]
    rfl

/-! ## Toolkit: `bits_to_int` -/

lemma foldl_add_shift_acc (l : List (Nat × Nat)) :
    ∀ acc : Nat, l.foldl (fun retval p => retval + (p.2 <<< p.1)) acc =
      acc + l.foldl (fun retval p => retval + (p.2 <<< p.1)) 0 := by
  induction l with
  | nil => intro acc; simp
  | cons p t ih =>
    intro acc
    simp only [List.foldl_cons]
    rw [ih (acc + p.2 <<< p.1), ih (0 + p.2 <<< p.1)]
    omega

lemma foldl_enumFrom_succ (t : List Nat) :
    ∀ i : Nat, (t.enumFrom (i + 1)).foldl (fun retval p => retval + (p.2 <<< p.1)) 0 =
      2 * (t.enumFrom i).foldl (fun retval p => retval + (p.2 <<< p.1)) 0 := by
  induction t with
  | nil => intro i; simp
  | cons a t ih =>
    intro i
    simp only [List.enumFrom_cons, List.foldl_cons]
    rw [foldl_add_shift_acc (t.enumFrom (i + 2)), foldl_add_shift_acc (t.enumFrom (i + 1))]
    have h1 : (t.enumFrom (i + 2)).foldl (fun retval p => retval + (p.2 <<< p.1)) 0 =
        2 * (t.enumFrom (i + 1)).foldl (fun retval p => retval + (p.2 <<< p.1)) 0 := ih (i + 1)
    have h2 : (a <<< (i + 1)) = 2 * (a <<< i) := Nat.shiftLeft_succ a i
    omega

@[simp] lemma bits_to_int_nil : bits_to_int [] = 0 := rfl

lemma bits_to_int_snoc (xs : List Nat) (b : Nat) :
    bits_to_int (xs ++ [b]) = 2 * bits_to_int xs + b := by
  unfold bits_to_int
  rw [List.reverse_append]
  simp only [List.reverse_singleton, List.singleton_append, List.enum]
  rw [List.enumFrom_cons]
  simp only [List.foldl_cons]
  rw [foldl_add_shift_acc, foldl_enumFrom_succ]
  simp only [Nat.shiftLeft_zero, Nat.zero_add, List.enum]
  omega

lemma bits_to_int_lt (l : List Nat) (h : ∀ x ∈ l, x < 2) :
    bits_to_int l < 2 ^ l.length := by
  induction l using List.reverseRecOn with
  | nil => simp
  | append_singleton xs b ih =>
    rw [bits_to_int_snoc]
    have hb : b < 2 := h b (by simp)
    have hxs := ih (fun x hx => h x (by simp [hx]))
    rw [List.length_append, List.length_singleton, Nat.pow_succ]
    omega

lemma bits_to_int_natBits (w : Nat) : ∀ v, bits_to_int (natBits w v) = v % 2 ^ w := by
  induction w with
  | zero => intro v; simp [natBits, Nat.mod_one]
  | succ w ih =>
    intro v
    have h7 : 2 ^ (w + 1) = 2 * 2 ^ w := by
      rw [Nat.pow_succ]; omega
    show bits_to_int (natBits w (v >>> 1) ++ [v &&& 1]) = _
    rw [bits_to_int_snoc, ih (v >>> 1), shiftRight_one_eq, Nat.and_one_is_mod, h7]
    have h1 : v / 2 % 2 ^ w = v % (2 * 2 ^ w) / 2 := (Nat.mod_mul_right_div_self v 2 (2 ^ w)).symm
    have h2 : v % (2 * 2 ^ w) % 2 = v % 2 := Nat.mod_mod_of_dvd v ⟨2 ^ w, rfl⟩
    have h3 := Nat.div_add_mod (v % (2 * 2 ^ w)) 2
    omega

lemma bits_to_int_natBits_of_lt {w v : Nat} (h : v < 2 ^ w) :
    bits_to_int (natBits w v) = v := by
  rw [bits_to_int_natBits, Nat.mod_eq_of_lt h]

lemma natBits_bits_to_int (l : List Nat) (h : ∀ x ∈ l, x < 2) :
    natBits l.length (bits_to_int l) = l := by
  induction l using List.reverseRecOn with
  | nil => rfl
  | append_singleton xs b ih =>
    have hb : b < 2 := h b (by simp)
    rw [bits_to_int_snoc, List.length_append, List.length_singleton]
    show natBits xs.length ((2 * bits_to_int xs + b) >>> 1) ++ [(2 * bits_to_int xs + b) &&& 1] = _
    have h1 : (2 * bits_to_int xs + b) >>> 1 = bits_to_int xs := by
      rw [shiftRight_one_eq]; omega
    have h2 : (2 * bits_to_int xs + b) &&& 1 = b := by
      rw [Nat.and_one_is_mod]; omega
    rw [h1, h2, ih (fun x hx => h x (by simp [hx]))]

set_option maxRecDepth 4096 in
lemma bitwalkerByte_eq_natBits : ∀ b < 256, bitwalkerByte b = natBits 8 b := by decide

/-! ## Toolkit: list splitting -/

lemma take_append_of_le {A B : List α} {n : Nat} (h : n ≤ A.length) :
    (A ++ B).take n = A.take n := by
  have hlen : (A.take n).length = n := by
    rw [List.length_take]
    omega
  calc (A ++ B).take n = ((A.take n ++ A.drop n) ++ B).take n := by rw [List.take_append_drop]
    _ = (A.take n ++ (A.drop n ++ B)).take n := by rw [List.append_assoc]
    _ = A.take n := List.take_left' hlen

lemma drop_append_of_le {A B : List α} {n : Nat} (h : n ≤ A.length) :
    (A ++ B).drop n = A.drop n ++ B := by
  have hlen : (A.take n).length = n := by
    rw [List.length_take]
    omega
  calc (A ++ B).drop n = ((A.take n ++ A.drop n) ++ B).drop n := by rw [List.take_append_drop]
    _ = (A.take n ++ (A.drop n ++ B)).drop n := by rw [List.append_assoc]
    _ = A.drop n ++ B := List.drop_left' hlen

lemma take_append_add (A : List α) : ∀ (B : List α) (t : Nat),
    (A ++ B).take (A.length + t) = A ++ B.take t := by
  induction A with
  | nil => intro B t; simp
  | cons a A ih =>
    intro B t
    have h1 : (a :: A).length + t = (A.length + t) + 1 := by simp; omega
    rw [h1]
    simp only [List.cons_append, List.take_succ_cons]
    rw [ih B t]

/-! ## Toolkit: `chunkwise` -/

lemma chunkwiseAux_spec (n : Nat) (_hn : 0 < n) :
    ∀ (l chunk : List α), chunk.length < n →
      chunkwiseAux n chunk l =
        if n ≤ chunk.length + l.length
        then (chunk ++ l).take n :: chunkwiseAux n [] ((chunk ++ l).drop n)
        else if chunk.length + l.length = 0 then [] else [chunk ++ l] := by
  intro l
  induction l with
  | nil =>
    intro chunk hc
    have hno : ¬ n ≤ chunk.length + ([] : List α).length := by
      simp only [List.length_nil, Nat.add_zero]
      omega
    rw [if_neg hno]
    simp only [List.append_nil, List.length_nil, Nat.add_zero]
    show (if chunk.isEmpty then [] else [chunk]) = _
    cases chunk with
    | nil => simp
    | cons a t => simp
  | cons i rest ih =>
    intro chunk hc
    show (if (chunk ++ [i]).length = n
          then (chunk ++ [i]) :: chunkwiseAux n [] rest
          else chunkwiseAux n (chunk ++ [i]) rest) = _
    have hlen : (chunk ++ [i]).length = chunk.length + 1 := by simp
    by_cases hfull : (chunk ++ [i]).length = n
    · rw [if_pos hfull]
      have hyes : n ≤ chunk.length + (i :: rest).length := by
        simp only [List.length_cons]
        omega
      rw [if_pos hyes]
      have hsplit : chunk ++ i :: rest = (chunk ++ [i]) ++ rest := by
        rw [List.append_assoc]
        rfl
      rw [hsplit, List.take_left' hfull, List.drop_left' hfull]
    · rw [if_neg hfull]
      have hc' : (chunk ++ [i]).length < n := by omega
      rw [ih (chunk ++ [i]) hc']
      have hsplit : (chunk ++ [i]) ++ rest = chunk ++ i :: rest := by
        rw [List.append_assoc]
        rfl
      have hlen2 : (chunk ++ [i]).length + rest.length = chunk.length + (i :: rest).length := by
        simp only [List.length_cons]
        omega
      rw [hsplit, hlen2]

lemma chunkwise_eq_of_pos {n : Nat} (hn : 0 < n) (l : List α) :
    chunkwise n l =
      if l.length = 0 then []
      else if n ≤ l.length then l.take n :: chunkwise n (l.drop n) else [l] := by
  show chunkwiseAux n [] l = _
  rw [chunkwiseAux_spec n hn l [] (by simpa using hn)]
  simp only [List.nil_append, List.length_nil, Nat.zero_add]
  by_cases hle : n ≤ l.length
  · have hz : ¬ l.length = 0 := by omega
    rw [if_pos hle, if_neg hz, if_pos hle]
    rfl
  · by_cases hz : l.length = 0
    · rw [if_neg hle, if_pos hz, if_pos hz]
    · rw [if_neg hle, if_neg hz, if_neg hz, if_neg hle]

lemma chunkwise_nil_eq (n : Nat) : chunkwise n ([] : List α) = [] := rfl

lemma chunkwise_of_length_eq {n : Nat} (hn : 0 < n) {c : List α} (hc : c.length = n) :
    chunkwise n c = [c] := by
  rw [chunkwise_eq_of_pos hn]
  rw [if_neg (by omega), if_pos (by omega), List.take_of_length_le (by omega)]
  have hd : c.drop n = [] := List.drop_eq_nil_of_le (by omega)
  rw [hd, chunkwise_nil_eq]

lemma chunkwise_append_of_dvd {n : Nat} (hn : 0 < n) :
    ∀ (k : Nat) (A B : List α), A.length = n * k →
      chunkwise n (A ++ B) = chunkwise n A ++ chunkwise n B := by
  intro k
  induction k with
  | zero =>
    intro A B hA
    have : A = [] := List.length_eq_zero.mp (by omega)
    subst this
    simp [chunkwise_nil_eq]
  | succ k ih =>
    intro A B hA
    have hnk : n * (k + 1) = n * k + n := by ring
    have hAlen : n ≤ A.length := by omega
    rw [chunkwise_eq_of_pos hn (A ++ B),
      if_neg (by rw [List.length_append]; omega),
      if_pos (by rw [List.length_append]; omega)]
    rw [take_append_of_le hAlen, drop_append_of_le hAlen]
    have hdrop : (A.drop n).length = n * k := by
      rw [List.length_drop]
      omega
    rw [ih (A.drop n) B hdrop]
    rw [chunkwise_eq_of_pos hn A, if_neg (by omega), if_pos hAlen]
    rfl

lemma chunkwise_flatten_of_uniform {n : Nat} (hn : 0 < n) :
    ∀ (cs : List (List α)), (∀ c ∈ cs, c.length = n) → chunkwise n cs.flatten = cs := by
  intro cs
  induction cs with
  | nil => intro _; rfl
  | cons c cs ih =>
    intro h
    have hc : c.length = n := h c (by simp)
    show chunkwise n (c ++ cs.flatten) = _
    rw [chunkwise_append_of_dvd hn 1 c cs.flatten (by omega),
      chunkwise_of_length_eq hn hc, ih (fun d hd => h d (by simp [hd]))]
    rfl

lemma chunkwise_flatten_self_bounded {n : Nat} (hn : 0 < n) :
    ∀ (N : Nat) (l : List α), l.length ≤ N → (chunkwise n l).flatten = l := by
  intro N
  induction N with
  | zero =>
    intro l h
    have : l = [] := List.length_eq_zero.mp (by omega)
    subst this
    rfl
  | succ N ih =>
    intro l h
    by_cases hz : l.length = 0
    · have : l = [] := List.length_eq_zero.mp hz
      subst this
      rfl
    · rw [chunkwise_eq_of_pos hn, if_neg hz]
      by_cases hle : n ≤ l.length
      · rw [if_pos hle]
        have hd : (l.drop n).length ≤ N := by
          rw [List.length_drop]
          omega
        show l.take n ++ (chunkwise n (l.drop n)).flatten = l
        rw [ih (l.drop n) hd, List.take_append_drop]
      · rw [if_neg hle]
        simp

lemma chunkwise_flatten_self {n : Nat} (hn : 0 < n) (l : List α) :
    (chunkwise n l).flatten = l :=
  chunkwise_flatten_self_bounded hn l.length l (Nat.le_refl _)

lemma chunkwise_full_of_dvd {n : Nat} (hn : 0 < n) :
    ∀ (k : Nat) (l : List α), l.length = n * k → ∀ c ∈ chunkwise n l, c.length = n := by
  intro k
  induction k with
  | zero =>
    intro l hl c hc
    have : l = [] := List.length_eq_zero.mp (by omega)
    subst this
    rw [chunkwise_nil_eq] at hc
    simp at hc
  | succ k ih =>
    intro l hl c hc
    have hnk : n * (k + 1) = n * k + n := by ring
    have hlen : n ≤ l.length := by omega
    rw [chunkwise_eq_of_pos hn, if_neg (by omega), if_pos hlen] at hc
    rcases List.mem_cons.mp hc with rfl | hc
    · rw [List.length_take]
      omega
    · exact ih (l.drop n) (by rw [List.length_drop]; omega) c hc

lemma chunkwise_count_of_dvd {n : Nat} (hn : 0 < n) :
    ∀ (k : Nat) (l : List α), l.length = n * k → (chunkwise n l).length = k := by
  intro k
  induction k with
  | zero =>
    intro l hl
    have : l = [] := List.length_eq_zero.mp (by omega)
    subst this
    rfl
  | succ k ih =>
    intro l hl
    have hnk : n * (k + 1) = n * k + n := by ring
    have hlen : n ≤ l.length := by omega
    rw [chunkwise_eq_of_pos hn, if_neg (by omega), if_pos hlen]
    rw [List.length_cons, ih (l.drop n) (by rw [List.length_drop]; omega)]

lemma flatten_length_uniform {n : Nat} :
    ∀ (cs : List (List α)), (∀ c ∈ cs, c.length = n) → cs.flatten.length = cs.length * n := by
  intro cs
  induction cs with
  | nil => intro _; simp
  | cons c cs ih =>
    intro h
    show (c ++ cs.flatten).length = _
    rw [List.length_append, ih (fun d hd => h d (by simp [hd])), h c (by simp)]
    simp only [List.length_cons]
    ring

lemma flatten_take_uniform {n : Nat} :
    ∀ (cs : List (List α)), (∀ c ∈ cs, c.length = n) → ∀ m,
      (cs.take m).flatten = cs.flatten.take (m * n) := by
  intro cs
  induction cs with
  | nil => intro _ m; simp
  | cons c cs ih =>
    intro h m
    cases m with
    | zero => simp
    | succ m =>
      have hc : c.length = n := h c (by simp)
      show c ++ (cs.take m).flatten = (c ++ cs.flatten).take ((m + 1) * n)
      have harith : (m + 1) * n = c.length + m * n := by rw [hc]; ring
      rw [harith, take_append_add, ih (fun d hd => h d (by simp [hd])) m]

lemma flatten_map_flatten (f : α → List β) :
    ∀ (G : List (List α)),
      (G.map (fun c => (c.map f).flatten)).flatten = ((G.flatten).map f).flatten := by
  intro G
  induction G with
  | nil => rfl
  | cons c G ih =>
    show (c.map f).flatten ++ _ = _
    rw [ih]
    show _ = (((c ++ G.flatten)).map f).flatten
    rw [List.map_append, List.flatten_append]

/-! ## Toolkit: `Bitwriter` runs -/

lemma addAll_nil (w : Bitwriter) (bits : Nat) : addAll w [] bits = w := rfl

lemma addAll_cons (w : Bitwriter) (v : Nat) (vs : List Nat) (bits : Nat) :
    addAll w (v :: vs) bits = addAll (w.add v bits) vs bits := rfl

lemma addAll_append (w : Bitwriter) (g rest : List Nat) (bits : Nat) :
    addAll w (g ++ rest) bits = addAll (addAll w g bits) rest bits := by
  unfold addAll
  rw [List.foldl_append]

lemma add_flush (bs : List Nat) (a s v bits : Nat) (h : 8 ≤ s + bits) :
    Bitwriter.add ⟨bs, some a, s⟩ v bits = ⟨bs ++ [a <<< bits ||| v], some 0, 0⟩ := by
  simp only [Bitwriter.add, Option.getD_some]
  rw [if_pos h]

lemma add_stay (bs : List Nat) (a s v bits : Nat) (h : ¬ 8 ≤ s + bits) :
    Bitwriter.add ⟨bs, some a, s⟩ v bits = ⟨bs, some (a <<< bits ||| v), s + bits⟩ := by
  simp only [Bitwriter.add, Option.getD_some]
  rw [if_neg h]

lemma hornerExt_nil (bits a : Nat) : hornerExt bits a [] = a := rfl

lemma hornerExt_cons (bits a v : Nat) (g : List Nat) :
    hornerExt bits a (v :: g) = hornerExt bits (a <<< bits ||| v) g := rfl

lemma hornerExt_lt (bits : Nat) :
    ∀ (g : List Nat) (a p : Nat), a < 2 ^ p → (∀ v ∈ g, v < 2 ^ bits) →
      hornerExt bits a g < 2 ^ (p + g.length * bits) := by
  intro g
  induction g with
  | nil =>
    intro a p ha _
    simpa [hornerExt_nil] using ha
  | cons v g ih =>
    intro a p ha hv
    rw [hornerExt_cons]
    have hvb : v < 2 ^ bits := hv v (by simp)
    have h1 : a <<< bits ||| v = a * 2 ^ bits + v := lor_shift bits a v hvb
    have h2 : a * 2 ^ bits + v < 2 ^ (p + bits) := by
      have hmul : (a + 1) * 2 ^ bits ≤ 2 ^ p * 2 ^ bits := Nat.mul_le_mul_right _ ha
      have hpow : 2 ^ p * 2 ^ bits = 2 ^ (p + bits) := (Nat.pow_add 2 p bits).symm
      have hdist : (a + 1) * 2 ^ bits = a * 2 ^ bits + 2 ^ bits := by ring
      omega
    have hexp : p + (v :: g).length * bits = (p + bits) + g.length * bits := by
      simp only [List.length_cons]
      ring
    rw [hexp, h1]
    exact ih (a * 2 ^ bits + v) (p + bits) h2 (fun x hx => hv x (by simp [hx]))

lemma natBits_hornerExt (bits : Nat) :
    ∀ (g : List Nat) (a p : Nat), (∀ v ∈ g, v < 2 ^ bits) →
      natBits (p + g.length * bits) (hornerExt bits a g) =
        natBits p a ++ (g.map (natBits bits)).flatten := by
  intro g
  induction g with
  | nil =>
    intro a p _
    simp [hornerExt_nil]
  | cons v g ih =>
    intro a p hv
    have hvb : v < 2 ^ bits := hv v (by simp)
    have h1 : a <<< bits ||| v = a * 2 ^ bits + v := lor_shift bits a v hvb
    have hexp : p + (v :: g).length * bits = (p + bits) + g.length * bits := by
      simp only [List.length_cons]
      ring
    rw [hornerExt_cons, hexp, ih (a <<< bits ||| v) (p + bits) (fun x hx => hv x (by simp [hx]))]
    have hpos : 0 < 2 ^ bits := Nat.pos_pow_of_pos bits (by omega)
    have hsig : natBits (p + bits) (a <<< bits ||| v) = natBits p a ++ natBits bits v := by
      rw [natBits_split p bits]
      have hdiv : (a <<< bits ||| v) >>> bits = a := by
        rw [h1, Nat.shiftRight_eq_div_pow, Nat.mul_comm a (2 ^ bits), Nat.mul_add_div hpos]
        rw [Nat.div_eq_of_lt hvb]
        omega
      have hmod : natBits bits (a <<< bits ||| v) = natBits bits v := by
        have hm : (a <<< bits ||| v) % 2 ^ bits = v % 2 ^ bits := by
          rw [h1, Nat.mul_comm a (2 ^ bits), Nat.mul_add_mod]
        calc natBits bits (a <<< bits ||| v)
            = natBits bits ((a <<< bits ||| v) % 2 ^ bits) := (natBits_mod bits _).symm
          _ = natBits bits (v % 2 ^ bits) := by rw [hm]
          _ = natBits bits v := natBits_mod bits v
      rw [hdiv, hmod]
    rw [hsig, List.append_assoc]
    simp only [List.map_cons, List.flatten_cons]

lemma addAll_group (bits : Nat) :
    ∀ (g : List Nat) (bs : List Nat) (a s : Nat), g ≠ [] → 0 < bits →
      s + g.length * bits = 8 →
      addAll ⟨bs, some a, s⟩ g bits = ⟨bs ++ [hornerExt bits a g], some 0, 0⟩ := by
  intro g
  induction g with
  | nil =>
    intro bs a s hne _ _
    exact absurd rfl hne
  | cons v g ih =>
    intro bs a s _ hb htot
    have hlen : (v :: g).length * bits = g.length * bits + bits := by
      simp only [List.length_cons]
      ring
    rcases eq_or_ne g [] with rfl | hgne
    · have h1 : (v :: ([] : List Nat)).length * bits = bits := by simp
      rw [addAll_cons, add_flush bs a s v bits (by omega), addAll_nil]
      rfl
    · have hgpos : 0 < g.length := List.length_pos.mpr hgne
      have hgb : bits ≤ g.length * bits := Nat.le_mul_of_pos_left bits hgpos
      have hstay : ¬ 8 ≤ s + bits := by omega
      rw [addAll_cons, add_stay bs a s v bits hstay,
        ih bs (a <<< bits ||| v) (s + bits) hgne hb (by omega), hornerExt_cons]

lemma addAll_under (bits : Nat) :
    ∀ (g : List Nat) (bs : List Nat) (a s : Nat), s + g.length * bits < 8 →
      addAll ⟨bs, some a, s⟩ g bits = ⟨bs, some (hornerExt bits a g), s + g.length * bits⟩ := by
  intro g
  induction g with
  | nil =>
    intro bs a s _
    rw [addAll_nil, hornerExt_nil]
    simp
  | cons v g ih =>
    intro bs a s htot
    have hlen : (v :: g).length * bits = g.length * bits + bits := by
      simp only [List.length_cons]
      ring
    have hstay : ¬ 8 ≤ s + bits := by omega
    rw [addAll_cons, add_stay bs a s v bits hstay,
      ih bs (a <<< bits ||| v) (s + bits) (by omega), hornerExt_cons]
    have : s + bits + g.length * bits = s + (v :: g).length * bits := by omega
    rw [this]

lemma group_decomp (k : Nat) (hk : 0 < k) :
    ∀ (N : Nat) (vs : List Nat), vs.length ≤ N →
      ∃ (G : List (List Nat)) (P : List Nat),
        vs = G.flatten ++ P ∧ (∀ c ∈ G, c.length = k) ∧ P.length < k := by
  intro N
  induction N with
  | zero =>
    intro vs h
    have : vs = [] := List.length_eq_zero.mp (by omega)
    subst this
    exact ⟨[], [], by simp, by simp, by simpa using hk⟩
  | succ N ih =>
    intro vs h
    by_cases hlt : vs.length < k
    · exact ⟨[], vs, by simp, by simp, hlt⟩
    · have hdl : (vs.drop k).length ≤ N := by
        rw [List.length_drop]
        omega
      obtain ⟨G, P, hdec, hG, hP⟩ := ih (vs.drop k) hdl
      refine ⟨vs.take k :: G, P, ?_, ?_, hP⟩
      · rw [List.flatten_cons, List.append_assoc, ← hdec]
        exact (List.take_append_drop k vs).symm
      · intro c hc
        rcases List.mem_cons.mp hc with rfl | hc
        · rw [List.length_take]
          omega
        · exact hG c hc

lemma addAll_run (bits k : Nat) (hb : 0 < bits) (hk : k * bits = 8) :
    ∀ (G : List (List Nat)) (P : List Nat) (bs : List Nat),
      (∀ c ∈ G, c.length = k) → P.length < k →
      addAll ⟨bs, some 0, 0⟩ (G.flatten ++ P) bits =
        ⟨bs ++ G.map (hornerExt bits 0), some (hornerExt bits 0 P), P.length * bits⟩ := by
  intro G
  induction G with
  | nil =>
    intro P bs _ hP
    have hmul : (P.length + 1) * bits ≤ k * bits := Nat.mul_le_mul_right bits hP
    have hdist : (P.length + 1) * bits = P.length * bits + bits := by ring
    have hPlt : 0 + P.length * bits < 8 := by omega
    have := addAll_under bits P bs 0 0 hPlt
    simpa using this
  | cons c G ih =>
    intro P bs hG hP
    have hc : c.length = k := hG c (by simp)
    have hkpos : 0 < k := by
      rcases Nat.eq_zero_or_pos k with rfl | h
      · simp at hk
      · exact h
    have hcne : c ≠ [] := by
      intro h
      rw [h] at hc
      simp at hc
      omega
    show addAll ⟨bs, some 0, 0⟩ ((c ++ G.flatten) ++ P) bits = _
    rw [List.append_assoc, addAll_append,
      addAll_group bits c bs 0 0 hcne hb (by rw [hc]; omega),
      ih P (bs ++ [hornerExt bits 0 c]) (fun d hd => hG d (by simp [hd])) hP]
    simp

lemma addAll_init_eq (vs : List Nat) (bits : Nat) (h : vs ≠ []) :
    addAll Bitwriter.init vs bits = addAll ⟨[], some 0, 0⟩ vs bits := by
  cases vs with
  | nil => exact absurd rfl h
  | cons v vs => rfl

lemma shiftLeft_shiftRight_cancel (a m : Nat) : (a <<< m) >>> m = a := by
  rw [Nat.shiftLeft_eq, Nat.shiftRight_eq_div_pow]
  exact Nat.mul_div_cancel a (Nat.pos_pow_of_pos m (by omega))

lemma shiftLeft_mod_eq_zero (a m : Nat) : (a <<< m) % 2 ^ m = 0 := by
  rw [Nat.shiftLeft_eq]
  exact Nat.mul_mod_left a (2 ^ m)

/-- The central characterisation of one packed row: the built byte string, its
length, its bit expansion, the zero padding of its final byte, and its byte
ranges. -/
lemma packRow_spec (bits k : Nat) (hb : 0 < bits) (hk : k * bits = 8)
    (vs : List Nat) (hne : vs ≠ []) (hvs : ∀ v ∈ vs, v < 2 ^ bits) :
    ∃ (front : List Nat) (fin : Nat),
      packRow vs bits = .ok (front ++ [fin]) ∧
      (front ++ [fin]).length = vs.length * bits / 8 + 1 ∧
      bitwalker (front ++ [fin]) =
        (vs.map (natBits bits)).flatten ++
          List.replicate (8 * (front ++ [fin]).length - vs.length * bits) 0 ∧
      fin % 2 ^ (8 - vs.length * bits % 8) = 0 ∧
      (∀ b ∈ front ++ [fin], b < 256) := by
  have hkpos : 0 < k := by
    rcases Nat.eq_zero_or_pos k with rfl | h
    · simp at hk
    · exact h
  obtain ⟨G, P, hdec, hG, hP⟩ := group_decomp k hkpos vs.length vs (Nat.le_refl _)
  have hGmem : ∀ c ∈ G, ∀ v ∈ c, v < 2 ^ bits := by
    intro c hc v hv
    exact hvs v (by rw [hdec]; exact List.mem_append_left P (List.mem_flatten_of_mem hc hv))
  have hPmem : ∀ v ∈ P, v < 2 ^ bits := by
    intro v hv
    exact hvs v (by rw [hdec]; exact List.mem_append_right _ hv)
  set s := P.length * bits with hs
  have hslt : s < 8 := by
    have hmul : (P.length + 1) * bits ≤ k * bits := Nat.mul_le_mul_right bits hP
    have hdist : (P.length + 1) * bits = P.length * bits + bits := by ring
    omega
  have hrun : addAll ⟨[], some 0, 0⟩ vs bits =
      ⟨G.map (hornerExt bits 0), some (hornerExt bits 0 P), s⟩ := by
    rw [hdec, hs]
    have h2 := addAll_run bits k hb hk G P [] hG hP
    simpa using h2
  set front := G.map (hornerExt bits 0) with hfront
  set fin := hornerExt bits 0 P <<< (8 - s) with hfin
  have hlenvs : vs.length = G.length * k + P.length := by
    rw [hdec, List.length_append, flatten_length_uniform G hG]
  have hbits8 : vs.length * bits = 8 * G.length + s := by
    rw [hlenvs]
    have : (G.length * k + P.length) * bits = G.length * (k * bits) + P.length * bits := by ring
    rw [this, hk]
    omega
  have hfrontlt : ∀ b ∈ front, b < 256 := by
    intro b hb'
    rw [hfront] at hb'
    obtain ⟨c, hc, rfl⟩ := List.mem_map.mp hb'
    have h2 := hornerExt_lt bits c 0 0 (by omega) (hGmem c hc)
    rw [hG c hc, Nat.zero_add, hk] at h2
    norm_num at h2
    exact h2
  have hPlt : hornerExt bits 0 P < 2 ^ s := by
    have h2 := hornerExt_lt bits P 0 0 (by omega) hPmem
    rw [Nat.zero_add] at h2
    rw [hs]
    exact h2
  have hfinlt : fin < 256 := by
    rw [hfin, Nat.shiftLeft_eq]
    have h1 : (hornerExt bits 0 P + 1) * 2 ^ (8 - s) ≤ 2 ^ s * 2 ^ (8 - s) :=
      Nat.mul_le_mul_right _ hPlt
    have h2 : 2 ^ s * 2 ^ (8 - s) = 256 := by
      rw [← Nat.pow_add]
      have hss : s + (8 - s) = 8 := by omega
      rw [hss]
    have h3 : (hornerExt bits 0 P + 1) * 2 ^ (8 - s) =
        hornerExt bits 0 P * 2 ^ (8 - s) + 2 ^ (8 - s) := by ring
    have h4 : 0 < 2 ^ (8 - s) := Nat.pos_pow_of_pos _ (by omega)
    omega
  have hallrange : ∀ b ∈ front ++ [fin], b < 256 := by
    intro b hb'
    rcases List.mem_append.mp hb' with h | h
    · exact hfrontlt b h
    · rw [List.mem_singleton.mp h]
      exact hfinlt
  have hbuild : packRow vs bits = .ok (front ++ [fin]) := by
    show (addAll Bitwriter.init vs bits).build = _
    rw [addAll_init_eq vs bits hne, hrun]
    show (if (front ++ [fin]).all (· < 256) then Except.ok (front ++ [fin])
      else Except.error ()) = _
    rw [if_pos (by
      apply List.all_eq_true.mpr
      intro x hx
      exact decide_eq_true (hallrange x hx))]
  have hlen : (front ++ [fin]).length = vs.length * bits / 8 + 1 := by
    rw [List.length_append, List.length_singleton, hfront, List.length_map]
    rw [hbits8]
    rw [Nat.mul_add_div (by omega)]
    rw [Nat.div_eq_of_lt hslt]
  have hmod8 : vs.length * bits % 8 = s := by
    rw [hbits8, Nat.mul_add_mod, Nat.mod_eq_of_lt hslt]
  have hfinmod : fin % 2 ^ (8 - vs.length * bits % 8) = 0 := by
    rw [hmod8, hfin]
    exact shiftLeft_mod_eq_zero _ _
  have hbw : bitwalker (front ++ [fin]) =
      (vs.map (natBits bits)).flatten ++
        List.replicate (8 * (front ++ [fin]).length - vs.length * bits) 0 := by
    show ((front ++ [fin]).map bitwalkerByte).flatten = _
    rw [List.map_append, List.flatten_append]
    have hfrontbits : (front.map bitwalkerByte).flatten =
        ((G.flatten).map (natBits bits)).flatten := by
      rw [hfront, List.map_map]
      have hmapeq : G.map (bitwalkerByte ∘ hornerExt bits 0) =
          G.map (fun c => ((c.map (natBits bits)).flatten)) := by
        apply List.map_congr_left
        intro c hc
        show bitwalkerByte (hornerExt bits 0 c) = _
        have hb256 : hornerExt bits 0 c < 256 := by
          have := hornerExt_lt bits c 0 0 (by omega) (hGmem c hc)
          rw [hG c hc] at this
          simpa [hk] using this
        rw [bitwalkerByte_eq_natBits _ hb256]
        have := natBits_hornerExt bits c 0 0 (hGmem c hc)
        rw [hG c hc] at this
        simp only [Nat.zero_add, hk] at this
        simpa using this
      rw [hmapeq, flatten_map_flatten]
    have hfinbits : (([fin].map bitwalkerByte)).flatten =
        (P.map (natBits bits)).flatten ++ List.replicate (8 - s) 0 := by
      show bitwalkerByte fin ++ [] = _
      rw [List.append_nil, bitwalkerByte_eq_natBits _ hfinlt]
      have hsplit8 : natBits 8 fin = natBits s (fin >>> (8 - s)) ++ natBits (8 - s) fin := by
        have h8 : s + (8 - s) = 8 := by omega
        calc natBits 8 fin = natBits (s + (8 - s)) fin := by rw [h8]
          _ = natBits s (fin >>> (8 - s)) ++ natBits (8 - s) fin := natBits_split s (8 - s) fin
      rw [hsplit8]
      congr 1
      · rw [hfin, shiftLeft_shiftRight_cancel]
        have h2 := natBits_hornerExt bits P 0 0 hPmem
        rw [Nat.zero_add] at h2
        rw [hs]
        simpa using h2
      · have hm : fin % 2 ^ (8 - s) = 0 := by
          rw [hfin]
          exact shiftLeft_mod_eq_zero _ _
        calc natBits (8 - s) fin = natBits (8 - s) (fin % 2 ^ (8 - s)) :=
              (natBits_mod (8 - s) fin).symm
          _ = natBits (8 - s) 0 := by rw [hm]
          _ = List.replicate (8 - s) 0 := natBits_zero_val (8 - s)
    rw [hfrontbits, hfinbits]
    have hvsmap : (vs.map (natBits bits)).flatten =
        ((G.flatten).map (natBits bits)).flatten ++ (P.map (natBits bits)).flatten := by
      rw [hdec, List.map_append, List.flatten_append]
    have hcount : 8 * (front ++ [fin]).length - vs.length * bits = 8 - s := by
      have hl : (front ++ [fin]).length = G.length + 1 := by
        rw [List.length_append, List.length_singleton, hfront, List.length_map]
      rw [hl, hbits8]
      have : 8 * (G.length + 1) = 8 * G.length + 8 := by ring
      omega
    rw [hcount, hvsmap, List.append_assoc]
  exact ⟨front, fin, hbuild, hlen, hbw, hfinmod, hallrange⟩


lemma bits_mem_cases (bits : Nat) (h : bits = 1 ∨ bits = 2 ∨ bits = 4 ∨ bits = 8) :
    ∃ k, 0 < bits ∧ k * bits = 8 := by
  rcases h with rfl | rfl | rfl | rfl
  · exact ⟨8, by omega, by norm_num⟩
  · exact ⟨4, by omega, by norm_num⟩
  · exact ⟨2, by omega, by norm_num⟩
  · exact ⟨1, by omega, by norm_num⟩

lemma packRow_empty (bits : Nat) : packRow [] bits = .ok [] := rfl

/-- Round trip for one row at the `packRow` / `unpackRow` level. -/
lemma unpackRow_packRow (bits k : Nat) (hb : 0 < bits) (hk : k * bits = 8)
    (vs : List Nat) (hvs : ∀ v ∈ vs, v < 2 ^ bits) :
    ∃ l, packRow vs bits = .ok l ∧ unpackRow l vs.length bits = vs ∧
      (∀ b ∈ l, b < 256) := by
  rcases eq_or_ne vs [] with rfl | hne
  · exact ⟨[], rfl, rfl, by simp⟩
  · obtain ⟨front, fin, hok, _, hbw, _, hrange⟩ := packRow_spec bits k hb hk vs hne hvs
    refine ⟨front ++ [fin], hok, ?_, hrange⟩
    unfold unpackRow
    rw [hbw]
    have huni : ∀ c ∈ vs.map (natBits bits), c.length = bits := by
      intro c hc
      obtain ⟨v, _, rfl⟩ := List.mem_map.mp hc
      exact natBits_length bits v
    have hflen : (vs.map (natBits bits)).flatten.length = vs.length * bits := by
      rw [flatten_length_uniform _ huni, List.length_map]
    rw [chunkwise_append_of_dvd hb vs.length _ _ (by rw [hflen]; ring)]
    rw [chunkwise_flatten_of_uniform hb _ huni]
    have hA : (vs.map (natBits bits)).length = vs.length := List.length_map _ _
    rw [take_append_of_le (le_of_eq hA.symm), List.take_of_length_le (le_of_eq hA)]
    rw [List.map_map]
    have hid : vs.map (bits_to_int ∘ natBits bits) = vs.map id := by
      apply List.map_congr_left
      intro v hv
      exact bits_to_int_natBits_of_lt (hvs v hv)
    rw [hid, List.map_id]

/-! ## Claims about the bit packer -/

/-- C2: for every `bits_per_pixel ∈ {1,2,4,8}`, every width, and every sequence
of `width` pixel indices in `[0, 2^bits_per_pixel)`, packing the indices
(`Bitwriter.add` per index, then `Bitwriter.build`) and then unpacking the
resulting bytes (`bitwalker` MSB-first, `chunkwise` groups of `bits_per_pixel`,
`bits_to_int`, first `width` values) yields the original index sequence. -/
theorem C2_pack_unpack_roundtrip (bits : Nat)
    (hbits : bits = 1 ∨ bits = 2 ∨ bits = 4 ∨ bits = 8)
    (vs : List Nat) (hvs : ∀ v ∈ vs, v < 2 ^ bits) :
    ∃ l, packRow vs bits = .ok l ∧ unpackRow l vs.length bits = vs := by
  obtain ⟨k, hb, hk⟩ := bits_mem_cases bits hbits
  obtain ⟨l, h1, h2, _⟩ := unpackRow_packRow bits k hb hk vs hvs
  exact ⟨l, h1, h2⟩

/-- Witness for C2: `bits_per_pixel = 2`, indices `[3, 1]` (the spec's concrete
scenario: the packed byte is `0xD0`). -/
theorem C2_pack_unpack_roundtrip_witness :
    ∃ l, packRow [3, 1] 2 = .ok l ∧ unpackRow l 2 2 = [3, 1] :=
  C2_pack_unpack_roundtrip 2 (by omega) [3, 1] (by decide)

/-- C9 counterexample: three `Bitwriter.add` calls of widths 6, 6 and 4 bits
(total 16 bits, a positive multiple of 8) build 2 bytes, not 16/8 + 1 = 3:
the second `add` flushes 12 accumulated bits as a single list entry. -/
theorem C9_counterexample :
    (((Bitwriter.init.add 0 6).add 0 6).add 0 4).build = .ok [0, 0] ∧
      (2 : Nat) ≠ 16 / 8 + 1 := by
  exact ⟨rfl, by decide⟩

/-- C9 (amended): for every non-empty sequence of `Bitwriter.add` calls of one
uniform width `bits ∈ {1,2,4,8}` with every value below `2 ^ bits`,
`Bitwriter.build` returns `total_bits / 8 + 1` bytes; when the total bit count
is a positive multiple of 8 the extra byte is a trailing `0x00` (after each
completed byte the accumulator is reset to `0` rather than cleared), and
otherwise the count equals `⌈total_bits / 8⌉` and the final partial byte is
left-aligned with zero-filled low bits. -/
theorem C9_build_length_amended (bits : Nat)
    (hbits : bits = 1 ∨ bits = 2 ∨ bits = 4 ∨ bits = 8)
    (vs : List Nat) (hne : vs ≠ []) (hvs : ∀ v ∈ vs, v < 2 ^ bits) :
    ∃ l, (addAll Bitwriter.init vs bits).build = .ok l ∧
      l.length = vs.length * bits / 8 + 1 ∧
      (vs.length * bits % 8 = 0 → l.getLast? = some 0) ∧
      (vs.length * bits % 8 ≠ 0 →
        ∃ b, l.getLast? = some b ∧ b % 2 ^ (8 - vs.length * bits % 8) = 0) := by
  obtain ⟨k, hb, hk⟩ := bits_mem_cases bits hbits
  obtain ⟨front, fin, hok, hlen, _, hfm, hrange⟩ := packRow_spec bits k hb hk vs hne hvs
  refine ⟨front ++ [fin], hok, hlen, ?_, ?_⟩
  · intro hz
    rw [List.getLast?_concat]
    have hfin0 : fin = 0 := by
      have h1 := hfm
      rw [hz] at h1
      have h2 : fin < 256 := hrange fin (by simp)
      have h3 : (2 : Nat) ^ (8 - 0) = 256 := by norm_num
      rw [h3] at h1
      omega
    rw [hfin0]
  · intro _
    exact ⟨fin, List.getLast?_concat _, hfm⟩

/-- Witness for C9 (amended): one 8-bit value; the total (8 bits) is a multiple
of 8 and build yields 8/8 + 1 = 2 bytes ending in the extra `0x00`. -/
theorem C9_build_length_amended_witness :
    ∃ l, (addAll Bitwriter.init [255] 8).build = .ok l ∧
      l.length = [255].length * 8 / 8 + 1 ∧
      ([255].length * 8 % 8 = 0 → l.getLast? = some 0) ∧
      ([255].length * 8 % 8 ≠ 0 →
        ∃ b, l.getLast? = some b ∧ b % 2 ^ (8 - [255].length * 8 % 8) = 0) :=
  C9_build_length_amended 8 (by omega) [255] (by decide) (by decide)

/-- C10: `Bitwriter.add` does no masking or range check.  Concretely, packing
`[0, 7, 0, 0]` at 2 bits per pixel ORs the excess high bit of `7` over the
previous pixel, and the row unpacks as `[1, 3, 0, 0]`; adding `300` at 8 bits
leaves an accumulator entry above 255 so `build` fails at the `array('B')`
conversion; and under the precondition that every value is below
`2 ^ bits_per_pixel` (for `bits_per_pixel ∈ {1,2,4,8}`), every built byte is a
valid byte (< 256) and the packed row unpacks to exactly the original values. -/
theorem C10_add_no_masking :
    (packRow [0, 7, 0, 0] 2 = .ok [112, 0] ∧ unpackRow [112, 0] 4 2 = [1, 3, 0, 0] ∧
      [1, 3, 0, 0] ≠ [0, 7, 0, 0]) ∧
    ((Bitwriter.init.add 300 8).bytes = [300] ∧ 255 < 300 ∧
      (Bitwriter.init.add 300 8).build = .error ()) ∧
    (∀ bits : Nat, (bits = 1 ∨ bits = 2 ∨ bits = 4 ∨ bits = 8) →
      ∀ vs : List Nat, (∀ v ∈ vs, v < 2 ^ bits) →
      ∃ l, packRow vs bits = .ok l ∧ (∀ b ∈ l, b < 256) ∧
        unpackRow l vs.length bits = vs) := by
  refine ⟨⟨by rfl, by rfl, by decide⟩, ⟨by rfl, by omega, by rfl⟩, ?_⟩
  intro bits hbits vs hvs
  obtain ⟨k, hb, hk⟩ := bits_mem_cases bits hbits
  obtain ⟨l, h1, h2, h3⟩ := unpackRow_packRow bits k hb hk vs hvs
  exact ⟨l, h1, h3, h2⟩

/-- Witness for C10's guarded part: `bits_per_pixel = 4`, values `[5, 10]`. -/
theorem C10_add_no_masking_witness :
    ∃ l, packRow [5, 10] 4 = .ok l ∧ (∀ b ∈ l, b < 256) ∧
      unpackRow l 2 4 = [5, 10] :=
  C10_add_no_masking.2.2 4 (by omega) [5, 10] (by decide)

/-! ## Toolkit: `Except` and `mapM` -/

lemma except_bind_ok {α β : Type} {x : Except Unit α} {f : α → Except Unit β} {b : β}
    (h : (x >>= f) = .ok b) : ∃ a, x = .ok a ∧ f a = .ok b := by
  cases x with
  | error e =>
    exact absurd h (by simp [Bind.bind, Except.bind])
  | ok a =>
    refine ⟨a, rfl, ?_⟩
    simpa [Bind.bind, Except.bind] using h

lemma mapM_ok_of_forall {α β : Type} (f : α → Except Unit β) (g : α → β) :
    ∀ l : List α, (∀ x ∈ l, f x = .ok (g x)) → l.mapM f = .ok (l.map g) := by
  intro l
  induction l with
  | nil => intro _; rfl
  | cons a t ih =>
    intro h
    rw [List.mapM_cons, h a (by simp), ih (fun x hx => h x (by simp [hx]))]
    rfl

lemma mapM_ok_inv {α β : Type} (f : α → Except Unit β) :
    ∀ (l : List α) (out : List β), l.mapM f = .ok out →
      List.Forall₂ (fun a b => f a = .ok b) l out := by
  intro l
  induction l with
  | nil =>
    intro out h
    have : out = [] := by
      have h2 : (Except.ok [] : Except Unit (List β)) = .ok out := h
      cases h2
      rfl
    subst this
    exact List.Forall₂.nil
  | cons a t ih =>
    intro out h
    rw [List.mapM_cons] at h
    obtain ⟨b, hb, h2⟩ := except_bind_ok h
    obtain ⟨bs, hbs, h3⟩ := except_bind_ok h2
    have : out = b :: bs := by
      have h4 : (Except.ok (b :: bs) : Except Unit (List β)) = .ok out := h3
      cases h4
      rfl
    subst this
    exact List.Forall₂.cons hb (ih bs hbs)

lemma forall₂_mem_right {α β : Type} {R : α → β → Prop} :
    ∀ {l : List α} {out : List β}, List.Forall₂ R l out → ∀ b ∈ out, ∃ a ∈ l, R a b := by
  intro l out h
  induction h with
  | nil => intro b hb; simp at hb
  | cons hab _ ih =>
    intro b hb
    rcases List.mem_cons.mp hb with rfl | hb
    · exact ⟨_, by simp, hab⟩
    · obtain ⟨a, ha, hr⟩ := ih b hb
      exact ⟨a, by simp [ha], hr⟩

/-! ## Toolkit: `Bitwriter.build` inversion and value-independent length -/

lemma build_ok_inv (w : Bitwriter) (l : List Nat) (h : w.build = .ok l) :
    (match w.last_byte with
      | none => w.bytes
      | some lb => w.bytes ++ [lb <<< (8 - w.pos)]) = l ∧
    (∀ b ∈ l, b < 256) := by
  unfold Bitwriter.build at h
  by_cases hall : (match w.last_byte with
      | none => w.bytes
      | some lb => w.bytes ++ [lb <<< (8 - w.pos)]).all (· < 256)
  · rw [if_pos hall] at h
    cases h
    refine ⟨rfl, ?_⟩
    intro b hb
    have := List.all_eq_true.mp hall b hb
    exact of_decide_eq_true this
  · rw [if_neg hall] at h
    cases h

lemma packRow_length (bits k : Nat) (hb : 0 < bits) (hk : k * bits = 8)
    (vs : List Nat) (l : List Nat) (h : packRow vs bits = .ok l) :
    l.length = if vs.length = 0 then 0 else vs.length * bits / 8 + 1 := by
  have hkpos : 0 < k := by
    rcases Nat.eq_zero_or_pos k with rfl | hkp
    · simp at hk
    · exact hkp
  rcases eq_or_ne vs [] with rfl | hne
  · have h2 : (Except.ok [] : Except Unit (List Nat)) = .ok l := h
    cases h2
    rfl
  · obtain ⟨G, P, hdec, hG, hP⟩ := group_decomp k hkpos vs.length vs (Nat.le_refl _)
    have hrun : addAll ⟨[], some 0, 0⟩ vs bits =
        ⟨G.map (hornerExt bits 0), some (hornerExt bits 0 P), P.length * bits⟩ := by
      rw [hdec]
      have h2 := addAll_run bits k hb hk G P [] hG hP
      simpa using h2
    have hpk : packRow vs bits = (addAll ⟨[], some 0, 0⟩ vs bits).build := by
      show (addAll Bitwriter.init vs bits).build = _
      rw [addAll_init_eq vs bits hne]
    rw [hpk, hrun] at h
    obtain ⟨hl, _⟩ := build_ok_inv _ _ h
    have hlen : l.length = G.length + 1 := by
      rw [← hl]
      simp
    have hlenvs : vs.length = G.length * k + P.length := by
      rw [hdec, List.length_append, flatten_length_uniform G hG]
    have hbits8 : vs.length * bits = 8 * G.length + P.length * bits := by
      rw [hlenvs]
      have : (G.length * k + P.length) * bits = G.length * (k * bits) + P.length * bits := by
        ring
      rw [this, hk]
      omega
    have hslt : P.length * bits < 8 := by
      have hmul : (P.length + 1) * bits ≤ k * bits := Nat.mul_le_mul_right bits hP
      have hdist : (P.length + 1) * bits = P.length * bits + bits := by ring
      omega
    have hvlen : vs.length ≠ 0 := by
      intro h0
      exact hne (List.length_eq_zero.mp h0)
    rw [if_neg hvlen, hlen, hbits8, Nat.mul_add_div (by omega), Nat.div_eq_of_lt hslt]

/-! ## Toolkit: decode-side characterisation -/

lemma getD_take (s : List Nat) (n i : Nat) (h : i < n) :
    (s.take n).getD i 0 = s.getD i 0 := by
  rcases Nat.lt_or_ge i s.length with hi | hi
  · have h1 : (s.take n)[i]? = s[i]? := by
      rw [List.getElem?_take]
      rw [if_pos h]
    rw [List.getD_eq_getElem?_getD, List.getD_eq_getElem?_getD, h1]
  · have h1 : s[i]? = none := List.getElem?_eq_none hi
    have h2 : (s.take n)[i]? = none := by
      apply List.getElem?_eq_none
      rw [List.length_take]
      omega
    rw [List.getD_eq_getElem?_getD, List.getD_eq_getElem?_getD, h1, h2]

lemma readPalette_ok : ∀ (n : Nat) (s : List Nat), 4 * n ≤ s.length →
    readPalette n s = .ok (paletteSlices n s, s.drop (4 * n)) := by
  intro n
  induction n with
  | zero => intro s _; rfl
  | succ n ih =>
    intro s h
    have h4 : 4 ≤ s.length := by omega
    have hread : PaletteParser.read s = .ok (⟨s.getD 0 0, s.getD 1 0, s.getD 2 0, s.getD 3 0⟩,
        s.drop 4) := by
      unfold PaletteParser.read read_buffer
      have hlen : (s.take 4).length = 4 := by
        rw [List.length_take]
        omega
      rw [if_pos hlen]
      show (match PaletteParser.parse_data (s.take 4) with
        | some p => Except.ok (p, s.drop 4)
        | none => Except.error ()) = _
      unfold PaletteParser.parse_data
      rw [if_pos (by omega)]
      rw [getD_take s 4 0 (by omega), getD_take s 4 1 (by omega),
        getD_take s 4 2 (by omega), getD_take s 4 3 (by omega)]
    show (PaletteParser.read s >>= fun (p, s') =>
      readPalette n s' >>= fun (ps, s'') => .ok (p :: ps, s'')) = _
    rw [hread]
    have hdl : 4 * n ≤ (s.drop 4).length := by
      rw [List.length_drop]
      omega
    show (readPalette n (s.drop 4) >>= fun (ps, s'') =>
      .ok ((⟨s.getD 0 0, s.getD 1 0, s.getD 2 0, s.getD 3 0⟩ : PaletteData) :: ps, s'')) = _
    rw [ih (s.drop 4) hdl]
    show Except.ok (_, (s.drop 4).drop (4 * n)) = _
    rw [List.drop_drop]
    have : 4 + 4 * n = 4 * (n + 1) := by ring
    rw [this]
    rfl

/-- Full characterisation of a successful decode. -/
lemma decode_ok (info : ImageHeader) (data : List Nat)
    (hp : 4 * info.palette_colors ≤ data.length) :
    convert_palette_image_to_png info data = .ok
      { width := info.width
        height := info.height
        pixels := (List.range info.height).map (fun y =>
          let row_data := ((data.drop (4 * info.palette_colors)).drop
            (y * info.row_length)).take info.row_length
          let vals := unpackRow row_data info.width info.bits_per_pixel
          vals ++ List.replicate (info.width - vals.length) 0)
        palette := ((paletteSlices info.palette_colors data).map
          (fun p => [p.r, p.g, p.b])).flatten } := by
  unfold convert_palette_image_to_png
  rw [readPalette_ok info.palette_colors data hp]
  rfl

/-! ## Toolkit: encode-side characterisation -/

lemma encode_ok_inv (im : PILImage) (orig : ImageHeader) (out : List Nat)
    (h : convert_png_image_to_palette_image im orig = .ok out) :
    ∃ hd pp ir,
      ImageHeaderParser.build_bytes (encodeHeader im orig) = .ok hd ∧
      encodePalette (im.palette.take (orig.palette_colors * 3)) = .ok pp ∧
      encodeRows im orig = .ok ir ∧
      out = hd ++ pp.flatten ++ ir.flatten := by
  unfold convert_png_image_to_palette_image at h
  obtain ⟨hd, h1, h⟩ := except_bind_ok h
  obtain ⟨pp, h2, h⟩ := except_bind_ok h
  obtain ⟨ir, h3, h⟩ := except_bind_ok h
  have h4 : (Except.ok (hd ++ pp.flatten ++ ir.flatten) : Except Unit (List Nat)) = .ok out := h
  cases h4
  exact ⟨hd, pp, ir, h1, h2, h3, rfl⟩

lemma imageHeader_build_length (h : ImageHeader) (l : List Nat)
    (hok : ImageHeaderParser.build_bytes h = .ok l) : l.length = 16 := by
  unfold ImageHeaderParser.build_bytes at hok
  by_cases hc : h.sig.length = 4 ∧ h.sig.all (· < 256) ∧ h.width < 65536 ∧ h.height < 65536 ∧
      h.row_length < 65536 ∧ h.bits_per_pixel < 65536 ∧ h.palette_colors < 65536 ∧
      h.transparency < 65536
  · rw [if_pos hc] at hok
    cases hok
    simp [packU16LE, hc.1]
  · rw [if_neg hc] at hok
    cases hok

/-! ## Claims about the encode path (C3, C6, C7) -/

/-- C3 counterexample: with `width = 2`, `bits_per_pixel = 2`, `row_length = 4`
the built row is one byte and is emitted as one byte — no zero padding up to
`row_length`, so the pixel section is 1 byte, not `height * row_length = 4`;
and with `width = 2`, `bits_per_pixel = 8`, `row_length = 1` the built row is 3
bytes and is silently truncated to 1 byte instead of failing with a row-length
error. -/
theorem C3_counterexample :
    (convert_png_image_to_palette_image ⟨2, 1, [[1, 2]], [10, 20, 30]⟩
        ⟨[0, 0, 0, 0], 2, 1, 4, 2, 1, 0⟩ =
      .ok ([0, 0, 0, 0, 2, 0, 1, 0, 4, 0, 2, 0, 1, 0, 0, 0] ++ [10, 20, 30, 0] ++ [96]) ∧
      ([96] : List Nat).length ≠ 1 * 4) ∧
    (convert_png_image_to_palette_image ⟨2, 1, [[7, 9]], [10, 20, 30]⟩
        ⟨[0, 0, 0, 0], 2, 1, 1, 8, 1, 0⟩ =
      .ok ([0, 0, 0, 0, 2, 0, 1, 0, 1, 0, 8, 0, 1, 0, 0, 0] ++ [10, 20, 30, 0] ++ [7]) ∧
      packRow [7, 9] 8 = .ok [7, 9, 0] ∧ ([7, 9, 0] : List Nat).length > 1) := by
  exact ⟨⟨rfl, by decide⟩, ⟨rfl, rfl, by decide⟩⟩

/-- C3 (amended): each row emitted by `convert_png_image_to_palette_image` is
`build()` truncated to at most `row_length` bytes — a longer built row is
silently truncated (no `RowLengthMismatchError` exists in the code) and a
shorter one is left short (no zero padding) — so for `bits_per_pixel ∈
{1,2,4,8}` every emitted row has exactly
`min(built_row_length, row_length)` bytes, where `built_row_length` is
`width * bits_per_pixel / 8 + 1` (or 0 when `width = 0`), and the pixel-data
section has `height * min(built_row_length, row_length)` bytes. -/
theorem C3_row_truncation_amended (im : PILImage) (orig : ImageHeader)
    (hbits : orig.bits_per_pixel = 1 ∨ orig.bits_per_pixel = 2 ∨
      orig.bits_per_pixel = 4 ∨ orig.bits_per_pixel = 8)
    (out : List Nat) (h : convert_png_image_to_palette_image im orig = .ok out) :
    ∃ (hd pp : List Nat) (rows : List (List Nat)),
      out = hd ++ pp ++ rows.flatten ∧
      rows.length = orig.height ∧
      (∀ r ∈ rows, r.length =
        min (if orig.width = 0 then 0 else orig.width * orig.bits_per_pixel / 8 + 1)
          orig.row_length) ∧
      rows.flatten.length = orig.height *
        min (if orig.width = 0 then 0 else orig.width * orig.bits_per_pixel / 8 + 1)
          orig.row_length := by
  obtain ⟨k, hb, hk⟩ := bits_mem_cases _ hbits
  obtain ⟨hd, pp, ir, _, _, h3, h4⟩ := encode_ok_inv im orig out h
  have hf := mapM_ok_inv _ _ _ h3
  have hcount : ir.length = orig.height := by
    have hl := hf.length_eq
    simpa using hl.symm
  have hrowlen : ∀ r ∈ ir, r.length =
      min (if orig.width = 0 then 0 else orig.width * orig.bits_per_pixel / 8 + 1)
        orig.row_length := by
    intro r hr
    obtain ⟨y, _, hyr⟩ := forall₂_mem_right hf r hr
    obtain ⟨vals, hv, hyr⟩ := except_bind_ok hyr
    obtain ⟨row, hrow, hyr⟩ := except_bind_ok hyr
    have h5 : (Except.ok (row.take orig.row_length) : Except Unit (List Nat)) = .ok r := hyr
    cases h5
    have hvlen : vals.length = orig.width := by
      have hl := (mapM_ok_inv _ _ _ hv).length_eq
      simpa using hl.symm
    have hrl := packRow_length _ k hb hk vals row hrow
    rw [List.length_take, hrl]
    simp only [hvlen]
    rw [Nat.min_comm]
  refine ⟨hd, pp.flatten, ir, by rw [h4], hcount, hrowlen, ?_⟩
  rw [flatten_length_uniform ir hrowlen, hcount, Nat.mul_comm]

/-- Witness for C3 (amended): the 2-pixel, 2-bit, `row_length = 4` encode; the
emitted pixel section is `1 * min(1*2/4+1, 4) = 1` byte. -/
theorem C3_row_truncation_amended_witness :
    ∃ (hd pp : List Nat) (rows : List (List Nat)),
      ([0, 0, 0, 0, 2, 0, 1, 0, 4, 0, 2, 0, 1, 0, 0, 0] ++ [10, 20, 30, 0] ++ [96] : List Nat) =
        hd ++ pp ++ rows.flatten ∧
      rows.length = 1 ∧
      (∀ r ∈ rows, r.length = min (if (2 : Nat) = 0 then 0 else 2 * 2 / 8 + 1) 4) ∧
      rows.flatten.length = 1 * min (if (2 : Nat) = 0 then 0 else 2 * 2 / 8 + 1) 4 :=
  C3_row_truncation_amended ⟨2, 1, [[1, 2]], [10, 20, 30]⟩ ⟨[0, 0, 0, 0], 2, 1, 4, 2, 1, 0⟩
    (by decide) _ (by rfl)

/-- C6 counterexample: a resource whose header declares `bits_per_pixel = 3`
(outside {1,2,4,8}) is decoded without any error — the pixels are unpacked as
3-bit chunks — and re-encoding at depth 3 also proceeds without error. -/
theorem C6_counterexample :
    convert_palette_image_to_png ⟨[0, 0, 0, 0], 2, 1, 1, 3, 1, 0⟩ [10, 20, 30, 0, 176] =
      .ok ⟨2, 1, [[5, 4]], [10, 20, 30]⟩ ∧
    convert_png_image_to_palette_image ⟨2, 1, [[5, 4]], [10, 20, 30]⟩
        ⟨[0, 0, 0, 0], 2, 1, 1, 3, 1, 0⟩ =
      .ok ([0, 0, 0, 0, 2, 0, 1, 0, 1, 0, 3, 0, 1, 0, 0, 0] ++ [10, 20, 30, 0] ++ [176]) := by
  exact ⟨rfl, rfl⟩

/-- C6 (amended): neither conversion validates `bits_per_pixel` — there is no
`UnsupportedBitDepthError` in the code.  Decoding succeeds for every declared
bit depth whenever the payload holds the full palette table, and the encode
path likewise proceeds at unsupported depths (here a depth-5 encode). -/
theorem C6_no_bitdepth_check_amended :
    (∀ (info : ImageHeader) (data : List Nat), 4 * info.palette_colors ≤ data.length →
      ∃ im, convert_palette_image_to_png info data = .ok im) ∧
    (∃ out, convert_png_image_to_palette_image ⟨1, 1, [[9]], [1, 2, 3]⟩
        ⟨[0, 0, 0, 0], 1, 1, 1, 5, 1, 0⟩ = .ok out) := by
  constructor
  · intro info data hp
    exact ⟨_, decode_ok info data hp⟩
  · exact ⟨_, rfl⟩

/-- Witness for C6 (amended): decoding a 7-bit-per-pixel resource succeeds. -/
theorem C6_no_bitdepth_check_amended_witness :
    ∃ im, convert_palette_image_to_png ⟨[0, 0, 0, 0], 1, 1, 1, 7, 1, 0⟩ [1, 2, 3, 9, 5] =
      .ok im :=
  C6_no_bitdepth_check_amended.1 ⟨[0, 0, 0, 0], 1, 1, 1, 7, 1, 0⟩ [1, 2, 3, 9, 5] (by decide)

/-- C7 counterexample: a raster whose palette table has 2 colors, encoded
against an original header with `palette_colors = 1`, emits `palette_colors =
1` — the palette is truncated to the original count first, so the field is not
the actual palette table length (2). -/
theorem C7_counterexample :
    convert_png_image_to_palette_image ⟨1, 1, [[0]], [10, 20, 30, 40, 50, 60]⟩
        ⟨[0, 0, 0, 0], 1, 1, 1, 8, 1, 0⟩ =
      .ok ([0, 0, 0, 0, 1, 0, 1, 0, 1, 0, 8, 0, 1, 0, 0, 0] ++ [10, 20, 30, 0] ++ [0]) ∧
    (encodeHeader ⟨1, 1, [[0]], [10, 20, 30, 40, 50, 60]⟩
        ⟨[0, 0, 0, 0], 1, 1, 1, 8, 1, 0⟩).palette_colors = 1 ∧
    ([10, 20, 30, 40, 50, 60] : List Nat).length / 3 = 2 ∧ (1 : Nat) ≠ 2 := by
  exact ⟨rfl, rfl, rfl, by decide⟩

/-- C7 (amended): the encoded header copies `sig`, `row_length`,
`bits_per_pixel`, `transparency` unchanged and takes `width`, `height` from the
raster, but `palette_colors` comes from the raster's palette table truncated to
the original count: it equals `min(3 * original.palette_colors,
len(raster palette)) / 3` — it may shrink below the original header's value,
never grow above it. -/
theorem C7_encode_header_amended (im : PILImage) (orig : ImageHeader) (out : List Nat)
    (h : convert_png_image_to_palette_image im orig = .ok out) :
    encodeHeader im orig =
      { sig := orig.sig
        width := im.width
        height := im.height
        row_length := orig.row_length
        bits_per_pixel := orig.bits_per_pixel
        palette_colors := min (orig.palette_colors * 3) im.palette.length / 3
        transparency := orig.transparency } ∧
    ∃ hd, ImageHeaderParser.build_bytes (encodeHeader im orig) = .ok hd ∧
      out.take 16 = hd := by
  constructor
  · simp only [encodeHeader, List.length_take]
  · obtain ⟨hd, pp, ir, h1, _, _, h4⟩ := encode_ok_inv im orig out h
    refine ⟨hd, h1, ?_⟩
    have hlen : hd.length = 16 := imageHeader_build_length _ _ h1
    rw [h4, List.append_assoc, take_append_of_le (by omega),
      List.take_of_length_le (by omega)]

/-- Witness for C7 (amended), at the 2-color raster / 1-color original. -/
theorem C7_encode_header_amended_witness :
    encodeHeader ⟨1, 1, [[0]], [10, 20, 30, 40, 50, 60]⟩ ⟨[0, 0, 0, 0], 1, 1, 1, 8, 1, 0⟩ =
      { sig := [0, 0, 0, 0]
        width := 1
        height := 1
        row_length := 1
        bits_per_pixel := 8
        palette_colors := min (1 * 3) 6 / 3
        transparency := 0 } ∧
    ∃ hd, ImageHeaderParser.build_bytes (encodeHeader ⟨1, 1, [[0]], [10, 20, 30, 40, 50, 60]⟩
        ⟨[0, 0, 0, 0], 1, 1, 1, 8, 1, 0⟩) = .ok hd ∧
      (([0, 0, 0, 0, 1, 0, 1, 0, 1, 0, 8, 0, 1, 0, 0, 0] ++ [10, 20, 30, 0] ++ [0] :
        List Nat)).take 16 = hd :=
  C7_encode_header_amended ⟨1, 1, [[0]], [10, 20, 30, 40, 50, 60]⟩
    ⟨[0, 0, 0, 0], 1, 1, 1, 8, 1, 0⟩ _ (by rfl)

/-! ## Toolkit: byte/bit reconstruction for the full round trip -/

lemma take_add_eq : ∀ (l : List α) (a b : Nat), l.take (a + b) = l.take a ++ (l.drop a).take b := by
  intro l
  induction l with
  | nil => intro a b; simp
  | cons x t ih =>
    intro a b
    cases a with
    | zero => simp
    | succ a =>
      have h1 : (a + 1) + b = (a + b) + 1 := by omega
      rw [h1]
      simp only [List.take_succ_cons, List.drop_succ_cons, List.cons_append]
      rw [← ih a b]

lemma getD_mem_of_lt (l : List Nat) (i : Nat) (h : i < l.length) : l.getD i 0 ∈ l := by
  rw [List.getD_eq_getElem?_getD, List.getElem?_eq_getElem h]
  exact List.getElem_mem h

@[simp] lemma bitwalkerByte_length (b : Nat) : (bitwalkerByte b).length = 8 := by
  simp [bitwalkerByte]

lemma bitwalker_length (r : List Nat) : (bitwalker r).length = r.length * 8 := by
  unfold bitwalker
  rw [flatten_length_uniform (r.map bitwalkerByte) ?_, List.length_map]
  intro c hc
  obtain ⟨b, _, rfl⟩ := List.mem_map.mp hc
  exact bitwalkerByte_length b

lemma bitwalker_eq_natBits (r : List Nat) (hr : ∀ b ∈ r, b < 256) :
    bitwalker r = (r.map (natBits 8)).flatten := by
  unfold bitwalker
  congr 1
  exact List.map_congr_left (fun b hb => bitwalkerByte_eq_natBits b (hr b hb))

lemma bitwalker_mem_lt (r : List Nat) (hr : ∀ b ∈ r, b < 256) :
    ∀ x ∈ bitwalker r, x < 2 := by
  intro x hx
  rw [bitwalker_eq_natBits r hr] at hx
  obtain ⟨c, hc, hxc⟩ := List.mem_flatten.mp hx
  obtain ⟨b, _, rfl⟩ := List.mem_map.mp hc
  exact natBits_mem_lt 8 b x hxc

lemma bytes_from_bits (r : List Nat) (hr : ∀ b ∈ r, b < 256) :
    (chunkwise 8 (bitwalker r)).map bits_to_int = r := by
  rw [bitwalker_eq_natBits r hr]
  rw [chunkwise_flatten_of_uniform (by omega) (r.map (natBits 8)) ?huni]
  case huni =>
    intro c hc
    obtain ⟨b, _, rfl⟩ := List.mem_map.mp hc
    exact natBits_length 8 b
  rw [List.map_map]
  have h2 : r.map (bits_to_int ∘ natBits 8) = r.map id := by
    apply List.map_congr_left
    intro b hb
    exact bits_to_int_natBits_of_lt (show b < 2 ^ 8 by have := hr b hb; omega)
  rw [h2, List.map_id]

lemma unpackRow_length (bits k : Nat) (hb : 0 < bits) (hk : k * bits = 8)
    (r : List Nat) (width : Nat) (hwb : width * bits ≤ 8 * r.length) :
    (unpackRow r width bits).length = width := by
  unfold unpackRow
  rw [List.length_map, List.length_take]
  have hdvd : (bitwalker r).length = bits * (k * r.length) := by
    rw [bitwalker_length]
    have : bits * (k * r.length) = (k * bits) * r.length := by ring
    rw [this, hk]
    ring
  rw [chunkwise_count_of_dvd hb (k * r.length) (bitwalker r) hdvd]
  have hwk : width ≤ k * r.length := by
    have h1 : width * bits ≤ (k * r.length) * bits := by
      have : (k * r.length) * bits = (k * bits) * r.length := by ring
      rw [this, hk]
      omega
    exact Nat.le_of_mul_le_mul_right h1 hb
  omega

/-- Repacking an unpacked row reproduces the row bytes, provided the row's
padding bits beyond `width * bits` are zero and `row_length` fits between the
minimum and the built length. -/
lemma repack_row (bits k : Nat) (hb : 0 < bits) (hk : k * bits = 8)
    (r : List Nat) (hr : ∀ b ∈ r, b < 256) (width rl : Nat) (hlen : r.length = rl)
    (hwb : width * bits ≤ 8 * rl)
    (hrl : rl ≤ (if width = 0 then 0 else width * bits / 8 + 1))
    (hpad : (bitwalker r).drop (width * bits) =
      List.replicate (8 * rl - width * bits) 0) :
    ∃ p, packRow (unpackRow r width bits) bits = .ok p ∧ p.take rl = r := by
  have hkpos : 0 < k := by
    rcases Nat.eq_zero_or_pos k with rfl | h
    · simp at hk
    · exact h
  rcases Nat.eq_zero_or_pos width with rfl | hwpos
  · rw [if_pos rfl] at hrl
    have hrl0 : rl = 0 := by omega
    have hrnil : r = [] := List.length_eq_zero.mp (by omega)
    subst hrnil
    refine ⟨[], ?_, by simp [hrl0]⟩
    show packRow (List.map bits_to_int ((chunkwise bits (bitwalker [])).take 0)) bits = _
    simp [packRow_empty]
  · rw [if_neg (by omega)] at hrl
    -- chunks of the row's bit stream
    have hbwlen : (bitwalker r).length = 8 * rl := by
      rw [bitwalker_length, hlen]
      ring
    have hdvd : (bitwalker r).length = bits * (k * rl) := by
      rw [hbwlen]
      have : bits * (k * rl) = (k * bits) * rl := by ring
      rw [this, hk]
    set chunks := chunkwise bits (bitwalker r) with hchunks
    have hcfull : ∀ c ∈ chunks, c.length = bits :=
      chunkwise_full_of_dvd hb (k * rl) (bitwalker r) hdvd
    have hccount : chunks.length = k * rl :=
      chunkwise_count_of_dvd hb (k * rl) (bitwalker r) hdvd
    have hcmem : ∀ c ∈ chunks, ∀ x ∈ c, x < 2 := by
      intro c hc x hx
      apply bitwalker_mem_lt r hr
      have hfl := chunkwise_flatten_self hb (bitwalker r)
      rw [← hfl]
      exact List.mem_flatten_of_mem hc hx
    set vs := unpackRow r width bits with hvs
    have hvslen : vs.length = width := unpackRow_length bits k hb hk r width (by omega)
    have hvs_eq : vs = (chunks.take width).map bits_to_int := rfl
    have hwk : width ≤ k * rl := by
      have h1 : width * bits ≤ (k * rl) * bits := by
        have : (k * rl) * bits = (k * bits) * rl := by ring
        rw [this, hk]
        omega
      exact Nat.le_of_mul_le_mul_right h1 hb
    have hmapback : vs.map (natBits bits) = chunks.take width := by
      rw [hvs_eq, List.map_map]
      have h2 : ∀ c ∈ chunks.take width, (natBits bits ∘ bits_to_int) c = id c := by
        intro c hc
        have hcm : c ∈ chunks := List.mem_of_mem_take hc
        show natBits bits (bits_to_int c) = c
        have := natBits_bits_to_int c (hcmem c hcm)
        rw [hcfull c hcm] at this
        exact this
      rw [List.map_congr_left h2, List.map_id]
    have hvrange : ∀ v ∈ vs, v < 2 ^ bits := by
      intro v hv
      rw [hvs_eq] at hv
      obtain ⟨c, hc, rfl⟩ := List.mem_map.mp hv
      have hcm : c ∈ chunks := List.mem_of_mem_take hc
      have := bits_to_int_lt c (hcmem c hcm)
      rw [hcfull c hcm] at this
      exact this
    have hvne : vs ≠ [] := by
      intro h0
      rw [h0] at hvslen
      simp at hvslen
      omega
    obtain ⟨front, fin, hok, hplen, hbw, _, hprange⟩ :=
      packRow_spec bits k hb hk vs hvne hvrange
    set p := front ++ [fin] with hp
    refine ⟨p, hok, ?_⟩
    -- the packed bit stream is the row's bit stream extended with zeros
    have hflat_take : (vs.map (natBits bits)).flatten = (bitwalker r).take (width * bits) := by
      rw [hmapback, flatten_take_uniform chunks hcfull width,
        chunkwise_flatten_self hb (bitwalker r)]
    have hplen' : p.length = width * bits / 8 + 1 := by
      rw [hplen, hvslen]
    have hrl_le : rl ≤ p.length := by omega
    have hpadsplit : 8 * p.length - vs.length * bits =
        (8 * rl - width * bits) + (8 * p.length - 8 * rl) := by
      rw [hvslen]
      have h1 : width * bits ≤ 8 * rl := hwb
      have h2 : 8 * rl ≤ 8 * p.length := by omega
      omega
    have hbw2 : bitwalker p = bitwalker r ++ List.replicate (8 * p.length - 8 * rl) 0 := by
      rw [hbw, hflat_take, hpadsplit, List.replicate_add, ← List.append_assoc, ← hpad,
        List.take_append_drop]
    -- reconstruct the bytes
    have hp256 : ∀ b ∈ p, b < 256 := hprange
    have hpbytes : (chunkwise 8 (bitwalker p)).map bits_to_int = p := bytes_from_bits p hp256
    have h8dvd : (bitwalker r).length = 8 * rl := hbwlen
    have hchunks8 : chunkwise 8 (bitwalker p) =
        chunkwise 8 (bitwalker r) ++ chunkwise 8 (List.replicate (8 * p.length - 8 * rl) 0) := by
      rw [hbw2]
      exact chunkwise_append_of_dvd (by omega) rl _ _ (by rw [h8dvd])
    have hcount8 : (chunkwise 8 (bitwalker r)).length = rl :=
      chunkwise_count_of_dvd (by omega) rl (bitwalker r) (by rw [h8dvd])
    calc p.take rl = ((chunkwise 8 (bitwalker p)).map bits_to_int).take rl := by rw [hpbytes]
      _ = ((chunkwise 8 (bitwalker p)).take rl).map bits_to_int := by rw [List.map_take]
      _ = ((chunkwise 8 (bitwalker r)).take rl).map bits_to_int := by
          rw [hchunks8, take_append_of_le (by omega)]
      _ = ((chunkwise 8 (bitwalker r))).map bits_to_int := by
          rw [List.take_of_length_le (by omega)]
      _ = r := bytes_from_bits r hr

/-! ## Toolkit: palette, row layout and header rebuild -/

lemma map_getD_range (l : List Nat) :
    (List.range l.length).map (fun i => l.getD i 0) = l := by
  apply List.ext_get
  · simp
  · intro i h1 h2
    have hi : i < l.length := by simpa using h2
    rw [List.get_eq_getElem, List.get_eq_getElem, List.getElem_map, List.getElem_range]
    show l.getD i 0 = _
    rw [List.getD_eq_getElem?_getD, List.getElem?_eq_getElem hi]
    rfl

lemma getD_map_range {β : Type} (f : Nat → β) (h y : Nat) (d : β) (hy : y < h) :
    ((List.range h).map f).getD y d = f y := by
  rw [List.getD_eq_getElem?_getD, List.getElem?_map, List.getElem?_range hy]
  rfl

lemma paletteSlices_length : ∀ (n : Nat) (s : List Nat), (paletteSlices n s).length = n := by
  intro n
  induction n with
  | zero => intro s; rfl
  | succ n ih => intro s; simp [paletteSlices, ih]

lemma take_four_eq (s : List Nat) (h : 4 ≤ s.length) :
    s.take 4 = [s.getD 0 0, s.getD 1 0, s.getD 2 0, s.getD 3 0] := by
  rcases s with _ | ⟨a, _ | ⟨b, _ | ⟨c, _ | ⟨d, t⟩⟩⟩⟩ <;> simp_all

lemma paletteSlices_bytes : ∀ (n : Nat) (s : List Nat), 4 * n ≤ s.length →
    ((paletteSlices n s).map (fun p => [p.r, p.g, p.b, p.pad])).flatten = s.take (4 * n) := by
  intro n
  induction n with
  | zero => intro s _; rfl
  | succ n ih =>
    intro s h
    show [s.getD 0 0, s.getD 1 0, s.getD 2 0, s.getD 3 0] ++
      ((paletteSlices n (s.drop 4)).map (fun p => [p.r, p.g, p.b, p.pad])).flatten = _
    rw [ih (s.drop 4) (by rw [List.length_drop]; omega)]
    have h4 : 4 * (n + 1) = 4 + 4 * n := by ring
    rw [h4, take_add_eq, take_four_eq s (by omega)]

lemma paletteSlices_mem_lt : ∀ (n : Nat) (s : List Nat), 4 * n ≤ s.length →
    (∀ b ∈ s, b < 256) →
    ∀ p ∈ paletteSlices n s, p.r < 256 ∧ p.g < 256 ∧ p.b < 256 ∧ p.pad < 256 := by
  intro n
  induction n with
  | zero => intro s _ _ p hp; simp [paletteSlices] at hp
  | succ n ih =>
    intro s h hb p hp
    rcases List.mem_cons.mp hp with rfl | hp
    · refine ⟨?_, ?_, ?_, ?_⟩ <;>
        exact hb _ (getD_mem_of_lt s _ (by omega))
    · exact ih (s.drop 4) (by rw [List.length_drop]; omega)
        (fun b hbm => hb b (List.mem_of_mem_drop hbm)) p hp

lemma rows_flatten : ∀ (h rl : Nat) (rest : List Nat), rest.length = h * rl →
    ((List.range h).map (fun y => (rest.drop (y * rl)).take rl)).flatten = rest := by
  intro h
  induction h with
  | zero =>
    intro rl rest hlen
    simp at hlen
    subst hlen
    rfl
  | succ h ih =>
    intro rl rest hlen
    have hmul : (h + 1) * rl = h * rl + rl := by ring
    rw [List.range_succ, List.map_append, List.flatten_append]
    have hfront : (List.range h).map (fun y => (rest.drop (y * rl)).take rl) =
        (List.range h).map (fun y => ((rest.take (h * rl)).drop (y * rl)).take rl) := by
      apply List.map_congr_left
      intro y hy
      have hylt : y < h := List.mem_range.mp hy
      have hsplit : h * rl = y * rl + (h * rl - y * rl) := by
        have : (y + 1) * rl ≤ h * rl := Nat.mul_le_mul_right rl hylt
        have hd : (y + 1) * rl = y * rl + rl := by ring
        omega
      rw [hsplit, ← List.take_drop, List.take_take]
      congr 1
      have : (y + 1) * rl ≤ h * rl := Nat.mul_le_mul_right rl hylt
      have hd : (y + 1) * rl = y * rl + rl := by ring
      omega
    rw [hfront, ih rl (rest.take (h * rl)) (by rw [List.length_take]; omega)]
    have hlast : (rest.drop (h * rl)).take rl = rest.drop (h * rl) := by
      apply List.take_of_length_le
      rw [List.length_drop]
      omega
    simp only [List.map_cons, List.map_nil, List.flatten_cons, List.flatten_nil,
      List.append_nil]
    rw [hlast, List.take_append_drop]

lemma take_two_eq (s : List Nat) (h : 2 ≤ s.length) :
    s.take 2 = [s.getD 0 0, s.getD 1 0] := by
  rcases s with _ | ⟨a, _ | ⟨b, t⟩⟩ <;> simp_all

lemma packU16_read (l : List Nat) (h2 : 2 ≤ l.length) (hb : ∀ b ∈ l, b < 256) :
    packU16LE (readU16LE l) = l.take 2 := by
  have hb0 : l.getD 0 0 < 256 := hb _ (getD_mem_of_lt l 0 (by omega))
  have hb1 : l.getD 1 0 < 256 := hb _ (getD_mem_of_lt l 1 (by omega))
  rw [take_two_eq l h2]
  unfold packU16LE readU16LE
  congr 1
  · omega
  · congr 1
    omega

lemma readU16_lt (l : List Nat) (hb : ∀ b ∈ l, b < 256) : readU16LE l < 65536 := by
  have hb0 : l.getD 0 0 < 256 := by
    rcases Nat.lt_or_ge 0 l.length with h | h
    · exact hb _ (getD_mem_of_lt l 0 h)
    · have : l = [] := List.length_eq_zero.mp (by omega)
      subst this
      simp
  have hb1 : l.getD 1 0 < 256 := by
    rcases Nat.lt_or_ge 1 l.length with h | h
    · exact hb _ (getD_mem_of_lt l 1 h)
    · rw [List.getD_eq_getElem?_getD, List.getElem?_eq_none h]
      simp
  unfold readU16LE
  omega

lemma packU32_read (l : List Nat) (h4 : 4 ≤ l.length) (hb : ∀ b ∈ l, b < 256) :
    packU32LE (readU32LE l) = l.take 4 := by
  have hb0 : l.getD 0 0 < 256 := hb _ (getD_mem_of_lt l 0 (by omega))
  have hb1 : l.getD 1 0 < 256 := hb _ (getD_mem_of_lt l 1 (by omega))
  have hb2 : l.getD 2 0 < 256 := hb _ (getD_mem_of_lt l 2 (by omega))
  have hb3 : l.getD 3 0 < 256 := hb _ (getD_mem_of_lt l 3 (by omega))
  rw [take_four_eq l h4]
  unfold packU32LE readU32LE
  congr 1
  · omega
  · congr 1
    · omega
    · congr 1
      · omega
      · congr 1
        omega

lemma readU32_lt (l : List Nat) (hb : ∀ b ∈ l, b < 256) : readU32LE l < 4294967296 := by
  have hget : ∀ i : Nat, l.getD i 0 < 256 := by
    intro i
    rcases Nat.lt_or_ge i l.length with h | h
    · exact hb _ (getD_mem_of_lt l i h)
    · rw [List.getD_eq_getElem?_getD, List.getElem?_eq_none h]
      simp
  have h0 := hget 0
  have h1 := hget 1
  have h2 := hget 2
  have h3 := hget 3
  unfold readU32LE
  omega

/-- Rebuilding a parsed image header reproduces the 16 header bytes. -/
lemma imageHeader_parse_build (data : List Nat) (hbytes : ∀ b ∈ data, b < 256)
    (info : ImageHeader) (hparse : ImageHeaderParser.parse_data data = some info) :
    ImageHeaderParser.build_bytes info = .ok (data.take 16) := by
  have h16 : 16 ≤ data.length := by
    by_contra h
    unfold ImageHeaderParser.parse_data at hparse
    rw [if_neg h] at hparse
    cases hparse
  have hinfo : info = ⟨data.take 4, readU16LE (data.drop 4), readU16LE (data.drop 6),
      readU16LE (data.drop 8), readU16LE (data.drop 10), readU16LE (data.drop 12),
      readU16LE (data.drop 14)⟩ := by
    unfold ImageHeaderParser.parse_data at hparse
    rw [if_pos h16] at hparse
    cases hparse
    rfl
  subst hinfo
  have hdropb : ∀ n : Nat, ∀ b ∈ data.drop n, b < 256 :=
    fun n b hbm => hbytes b (List.mem_of_mem_drop hbm)
  have hdl : ∀ n : Nat, (data.drop n).length = data.length - n := fun n => List.length_drop n data
  unfold ImageHeaderParser.build_bytes
  rw [if_pos ?hcond]
  case hcond =>
    refine ⟨?_, ?_, ?_, ?_, ?_, ?_, ?_, ?_⟩
    · rw [List.length_take]
      omega
    · apply List.all_eq_true.mpr
      intro x hx
      exact decide_eq_true (hbytes x (List.mem_of_mem_take hx))
    · exact readU16_lt _ (hdropb 4)
    · exact readU16_lt _ (hdropb 6)
    · exact readU16_lt _ (hdropb 8)
    · exact readU16_lt _ (hdropb 10)
    · exact readU16_lt _ (hdropb 12)
    · exact readU16_lt _ (hdropb 14)
  have hdd : ∀ a b : Nat, (data.drop a).drop b = data.drop (a + b) := by
    intro a b
    rw [List.drop_drop]
  have e4 : packU16LE (readU16LE (data.drop 4)) = (data.drop 4).take 2 :=
    packU16_read _ (by rw [hdl]; omega) (hdropb 4)
  have e6 : packU16LE (readU16LE (data.drop 6)) = (data.drop 6).take 2 :=
    packU16_read _ (by rw [hdl]; omega) (hdropb 6)
  have e8 : packU16LE (readU16LE (data.drop 8)) = (data.drop 8).take 2 :=
    packU16_read _ (by rw [hdl]; omega) (hdropb 8)
  have e10 : packU16LE (readU16LE (data.drop 10)) = (data.drop 10).take 2 :=
    packU16_read _ (by rw [hdl]; omega) (hdropb 10)
  have e12 : packU16LE (readU16LE (data.drop 12)) = (data.drop 12).take 2 :=
    packU16_read _ (by rw [hdl]; omega) (hdropb 12)
  have e14 : packU16LE (readU16LE (data.drop 14)) = (data.drop 14).take 2 :=
    packU16_read _ (by rw [hdl]; omega) (hdropb 14)
  have key : data.take 16 =
      data.take 4 ++ ((data.drop 4).take 2 ++ ((data.drop 6).take 2 ++ ((data.drop 8).take 2 ++
        ((data.drop 10).take 2 ++ ((data.drop 12).take 2 ++ (data.drop 14).take 2))))) := by
    have h1 : data.take 16 = data.take 4 ++ (data.drop 4).take 12 := by
      have e : (16 : Nat) = 4 + 12 := rfl
      rw [e, take_add_eq]
    have h2 : (data.drop 4).take 12 = (data.drop 4).take 2 ++ (data.drop 6).take 10 := by
      have e : (12 : Nat) = 2 + 10 := rfl
      rw [e, take_add_eq, hdd 4 2]
    have h3 : (data.drop 6).take 10 = (data.drop 6).take 2 ++ (data.drop 8).take 8 := by
      have e : (10 : Nat) = 2 + 8 := rfl
      rw [e, take_add_eq, hdd 6 2]
    have h4 : (data.drop 8).take 8 = (data.drop 8).take 2 ++ (data.drop 10).take 6 := by
      have e : (8 : Nat) = 2 + 6 := rfl
      rw [e, take_add_eq, hdd 8 2]
    have h5 : (data.drop 10).take 6 = (data.drop 10).take 2 ++ (data.drop 12).take 4 := by
      have e : (6 : Nat) = 2 + 4 := rfl
      rw [e, take_add_eq, hdd 10 2]
    have h6 : (data.drop 12).take 4 = (data.drop 12).take 2 ++ (data.drop 14).take 2 := by
      have e : (4 : Nat) = 2 + 2 := rfl
      rw [e, take_add_eq, hdd 12 2]
    rw [h1, h2, h3, h4, h5, h6]
  show Except.ok (data.take 4 ++ packU16LE (readU16LE (data.drop 4)) ++
    packU16LE (readU16LE (data.drop 6)) ++ packU16LE (readU16LE (data.drop 8)) ++
    packU16LE (readU16LE (data.drop 10)) ++ packU16LE (readU16LE (data.drop 12)) ++
    packU16LE (readU16LE (data.drop 14))) = Except.ok (data.take 16)
  rw [e4, e6, e8, e10, e12, e14]
  congr 1
  rw [key]
  simp [List.append_assoc]

lemma ok_bind {α β : Type} (a : α) (f : α → Except Unit β) :
    (Except.ok a >>= f : Except Unit β) = f a := rfl

lemma encode_ok_build (im : PILImage) (orig : ImageHeader) (hd : List Nat)
    (pp ir : List (List Nat))
    (h1 : ImageHeaderParser.build_bytes (encodeHeader im orig) = .ok hd)
    (h2 : encodePalette (im.palette.take (orig.palette_colors * 3)) = .ok pp)
    (h3 : encodeRows im orig = .ok ir) :
    convert_png_image_to_palette_image im orig = .ok (hd ++ pp.flatten ++ ir.flatten) := by
  unfold convert_png_image_to_palette_image
  rw [h1, ok_bind, h2, ok_bind, h3, ok_bind]
  rfl

/-! ## Claim C1: full decode / encode round trip -/

/-- C1 counterexample: a structurally valid resource whose palette entry has a
non-zero pad byte (5).  Decoding drops the pad byte and re-encoding writes it
back as 0, so the round trip does not reproduce the original resource bytes. -/
theorem C1_counterexample :
    ImageHeaderParser.parse_data
        ([0, 0, 0, 0, 1, 0, 1, 0, 1, 0, 8, 0, 1, 0, 0, 0] ++ [9, 8, 7, 5] ++ [0]) =
      some ⟨[0, 0, 0, 0], 1, 1, 1, 8, 1, 0⟩ ∧
    convert_palette_image_to_png ⟨[0, 0, 0, 0], 1, 1, 1, 8, 1, 0⟩ [9, 8, 7, 5, 0] =
      .ok ⟨1, 1, [[0]], [9, 8, 7]⟩ ∧
    convert_png_image_to_palette_image ⟨1, 1, [[0]], [9, 8, 7]⟩
        ⟨[0, 0, 0, 0], 1, 1, 1, 8, 1, 0⟩ =
      .ok ([0, 0, 0, 0, 1, 0, 1, 0, 1, 0, 8, 0, 1, 0, 0, 0] ++ [9, 8, 7, 0] ++ [0]) ∧
    ([0, 0, 0, 0, 1, 0, 1, 0, 1, 0, 8, 0, 1, 0, 0, 0] ++ [9, 8, 7, 0] ++ [0] : List Nat) ≠
      [0, 0, 0, 0, 1, 0, 1, 0, 1, 0, 8, 0, 1, 0, 0, 0] ++ [9, 8, 7, 5] ++ [0] := by
  exact ⟨rfl, rfl, rfl, by decide⟩

/-- C1 (amended): decoding a resource and re-encoding the unmodified raster and
palette with the original `ImageHeader` reproduces the resource bytes exactly,
PROVIDED every `PaletteEntry` pad byte is 0 (the code rewrites pads as 0),
every row's padding bits beyond `width * bits_per_pixel` are 0 (the code
zero-fills them), and `row_length` is at most the built row length
`width * bits_per_pixel / 8 + 1` (the code truncates to `row_length` and never
pads a short row). -/
theorem C1_decode_encode_roundtrip_amended (data : List Nat) (info : ImageHeader)
    (hbytes : ∀ b ∈ data, b < 256)
    (hparse : ImageHeaderParser.parse_data data = some info)
    (hbits : info.bits_per_pixel = 1 ∨ info.bits_per_pixel = 2 ∨
      info.bits_per_pixel = 4 ∨ info.bits_per_pixel = 8)
    (hlen : data.length = 16 + 4 * info.palette_colors + info.height * info.row_length)
    (hpads : ∀ p ∈ paletteSlices info.palette_colors (data.drop 16), p.pad = 0)
    (hwb : info.width * info.bits_per_pixel ≤ 8 * info.row_length)
    (hrl : info.row_length ≤
      (if info.width = 0 then 0 else info.width * info.bits_per_pixel / 8 + 1))
    (hrows : ∀ y < info.height,
      (bitwalker ((((data.drop 16).drop (4 * info.palette_colors)).drop
          (y * info.row_length)).take info.row_length)).drop
        (info.width * info.bits_per_pixel) =
        List.replicate (8 * info.row_length - info.width * info.bits_per_pixel) 0) :
    ∃ im, convert_palette_image_to_png info (data.drop 16) = .ok im ∧
      convert_png_image_to_palette_image im info = .ok data := by
  obtain ⟨k, hbp, hk⟩ := bits_mem_cases _ hbits
  have hplen : (data.drop 16).length =
      4 * info.palette_colors + info.height * info.row_length := by
    rw [List.length_drop]
    omega
  have hpaybytes : ∀ b ∈ data.drop 16, b < 256 :=
    fun b hb => hbytes b (List.mem_of_mem_drop hb)
  have hp4 : 4 * info.palette_colors ≤ (data.drop 16).length := by omega
  have hdec := decode_ok info (data.drop 16) hp4
  -- abbreviations for the decoded raster pieces
  set payload := data.drop 16 with hpayload
  set rest := payload.drop (4 * info.palette_colors) with hrest
  set slices := paletteSlices info.palette_colors payload with hslices
  set pal := (slices.map (fun p => [p.r, p.g, p.b])).flatten with hpal
  have hrestlen : rest.length = info.height * info.row_length := by
    rw [hrest, List.length_drop]
    omega
  have hrestbytes : ∀ b ∈ rest, b < 256 := fun b hb => hpaybytes b (List.mem_of_mem_drop hb)
  have hslices_rng := paletteSlices_mem_lt info.palette_colors payload (by omega) hpaybytes
  have htriple_uniform : ∀ c ∈ slices.map (fun p => [p.r, p.g, p.b]), c.length = 3 := by
    intro c hc
    obtain ⟨p, _, rfl⟩ := List.mem_map.mp hc
    rfl
  have hpallen : pal.length = info.palette_colors * 3 := by
    rw [hpal, flatten_length_uniform _ htriple_uniform, List.length_map, hslices,
      paletteSlices_length]
  -- the encoded header is the original header
  have hfield : (pal.take (info.palette_colors * 3)).length / 3 = info.palette_colors := by
    rw [List.length_take, hpallen]
    simp
  -- per-row facts
  have hrowdata_len : ∀ y < info.height,
      ((rest.drop (y * info.row_length)).take info.row_length).length =
        info.row_length := by
    intro y hy
    rw [List.length_take, List.length_drop, hrestlen]
    have : (y + 1) * info.row_length ≤ info.height * info.row_length :=
      Nat.mul_le_mul_right _ hy
    have hd : (y + 1) * info.row_length = y * info.row_length + info.row_length := by ring
    omega
  have hvals_len : ∀ y < info.height,
      (unpackRow ((rest.drop (y * info.row_length)).take info.row_length)
        info.width info.bits_per_pixel).length = info.width := by
    intro y hy
    apply unpackRow_length info.bits_per_pixel k hbp hk
    rw [hrowdata_len y hy]
    exact hwb
  set pixfun : Nat → List Nat := (fun y =>
    let row_data := (rest.drop (y * info.row_length)).take info.row_length
    let vals := unpackRow row_data info.width info.bits_per_pixel
    vals ++ List.replicate (info.width - vals.length) 0) with hpixfun
  set im : PILImage :=
    { width := info.width
      height := info.height
      pixels := (List.range info.height).map pixfun
      palette := pal } with him
  refine ⟨im, hdec, ?_⟩
  have himW : im.width = info.width := by rw [him]
  have himH : im.height = info.height := by rw [him]
  have himP : im.palette = pal := by rw [him]
  have himPix : im.pixels = (List.range info.height).map pixfun := by rw [him]
  -- the rebuilt header equals the original header
  have henc : encodeHeader im info = info := by
    unfold encodeHeader
    rw [himW, himH, himP]
    show ImageHeader.mk info.sig info.width info.height info.row_length info.bits_per_pixel
      ((pal.take (info.palette_colors * 3)).length / 3) info.transparency = info
    rw [hfield]
  have hhd : ImageHeaderParser.build_bytes (encodeHeader im info) = .ok (data.take 16) := by
    rw [henc]
    exact imageHeader_parse_build data hbytes info hparse
  -- the palette section round trips
  have hraw : pal.take (info.palette_colors * 3) = pal :=
    List.take_of_length_le (by omega)
  have hchunk : chunkwise 3 pal = slices.map (fun p => [p.r, p.g, p.b]) := by
    rw [hpal]
    exact chunkwise_flatten_of_uniform (by omega) _ htriple_uniform
  have hpp : encodePalette (im.palette.take (info.palette_colors * 3)) =
      .ok (slices.map (fun p => [p.r, p.g, p.b, p.pad])) := by
    rw [himP, hraw]
    unfold encodePalette
    rw [hchunk]
    have hmm := mapM_ok_of_forall (fun c =>
        match c with
        | [r, g, b] => PaletteParser.build_bytes ⟨r, g, b, 0⟩
        | _ => .error ())
      (fun c => c ++ [0]) (slices.map (fun p => [p.r, p.g, p.b])) ?hall
    case hall =>
      intro c hc
      obtain ⟨p, hps, rfl⟩ := List.mem_map.mp hc
      show PaletteParser.build_bytes ⟨p.r, p.g, p.b, 0⟩ = .ok ([p.r, p.g, p.b] ++ [0])
      unfold PaletteParser.build_bytes
      rw [if_pos ⟨(hslices_rng p hps).1, (hslices_rng p hps).2.1,
        (hslices_rng p hps).2.2.1, by show (0:Nat) < 256; decide⟩]
      rfl
    rw [hmm]
    congr 1
    rw [List.map_map]
    apply List.map_congr_left
    intro p hp
    show [p.r, p.g, p.b] ++ [0] = [p.r, p.g, p.b, p.pad]
    rw [hpads p hp]
    rfl
  have hppflat : (slices.map (fun p => [p.r, p.g, p.b, p.pad])).flatten =
      payload.take (4 * info.palette_colors) := by
    rw [hslices]
    exact paletteSlices_bytes info.palette_colors payload (by omega)
  -- the rows round trip
  have hrowfact : ∀ y < info.height,
      ∃ p, packRow (unpackRow ((rest.drop (y * info.row_length)).take info.row_length)
          info.width info.bits_per_pixel) info.bits_per_pixel = .ok p ∧
        p.take info.row_length = (rest.drop (y * info.row_length)).take info.row_length := by
    intro y hy
    apply repack_row info.bits_per_pixel k hbp hk _ ?_ info.width info.row_length
      (hrowdata_len y hy) hwb hrl
    · rw [hrest, hpayload]
      exact hrows y hy
    · intro b hb
      exact hrestbytes b (List.mem_of_mem_drop (List.mem_of_mem_take hb))
  have hpixrow : ∀ y < info.height, im.pixels.getD y [] =
      unpackRow ((rest.drop (y * info.row_length)).take info.row_length)
        info.width info.bits_per_pixel := by
    intro y hy
    rw [himPix, getD_map_range pixfun info.height y [] hy, hpixfun]
    show unpackRow ((rest.drop (y * info.row_length)).take info.row_length)
        info.width info.bits_per_pixel ++
      List.replicate (info.width -
        (unpackRow ((rest.drop (y * info.row_length)).take info.row_length)
          info.width info.bits_per_pixel).length) 0 = _
    rw [hvals_len y hy]
    simp
  have hrowsok : encodeRows im info = .ok ((List.range info.height).map
      (fun y => (rest.drop (y * info.row_length)).take info.row_length)) := by
    unfold encodeRows
    apply mapM_ok_of_forall
    intro y hy
    have hylt : y < info.height := List.mem_range.mp hy
    obtain ⟨p, hok, htake⟩ := hrowfact y hylt
    have hinner : (List.range info.width).mapM (fun x =>
        if info.width ≤ x then pure 0 else im.getpixel x y) =
        .ok (unpackRow ((rest.drop (y * info.row_length)).take info.row_length)
          info.width info.bits_per_pixel) := by
      have hmap := mapM_ok_of_forall (fun x =>
          if info.width ≤ x then pure 0 else im.getpixel x y)
        (fun x => (unpackRow ((rest.drop (y * info.row_length)).take info.row_length)
            info.width info.bits_per_pixel).getD x 0)
        (List.range info.width) ?hpix
      case hpix =>
        intro x hx
        have hxlt : x < info.width := List.mem_range.mp hx
        have hngt : ¬ info.width ≤ x := by omega
        show (if info.width ≤ x then pure 0 else im.getpixel x y) =
          .ok ((unpackRow ((rest.drop (y * info.row_length)).take info.row_length)
            info.width info.bits_per_pixel).getD x 0)
        rw [if_neg hngt]
        unfold PILImage.getpixel
        rw [if_pos ⟨by rw [himW]; omega, by rw [himH]; omega⟩]
        rw [hpixrow y hylt]
      rw [hmap]
      congr 1
      have hlen := hvals_len y hylt
      generalize hL : unpackRow ((rest.drop (y * info.row_length)).take info.row_length)
          info.width info.bits_per_pixel = L at hlen ⊢
      rw [← hlen]
      exact map_getD_range L
    show ((List.range info.width).mapM (fun x =>
        if info.width ≤ x then pure 0 else im.getpixel x y) >>= fun vals =>
      packRow vals info.bits_per_pixel >>= fun row =>
        pure (row.take info.row_length)) = _
    rw [hinner, ok_bind, hok, ok_bind, htake]
    rfl
  -- assemble the full output
  have hfinal := encode_ok_build im info (data.take 16)
    (slices.map (fun p => [p.r, p.g, p.b, p.pad]))
    ((List.range info.height).map
      (fun y => (rest.drop (y * info.row_length)).take info.row_length))
    hhd hpp hrowsok
  rw [hfinal]
  congr 1
  rw [hppflat, rows_flatten info.height info.row_length rest hrestlen]
  rw [List.append_assoc, hrest, List.take_append_drop, hpayload, List.take_append_drop]

/-- C1 witness: the amended round trip holds at a concrete 21-byte resource
(width 1, height 1, row_length 1, bits_per_pixel 8, one palette entry with pad
byte 0, one pixel byte 5). -/
theorem C1_decode_encode_roundtrip_amended_witness :
    ∃ im, convert_palette_image_to_png ⟨[0, 0, 0, 0], 1, 1, 1, 8, 1, 0⟩
        (([0, 0, 0, 0, 1, 0, 1, 0, 1, 0, 8, 0, 1, 0, 0, 0] ++ [9, 8, 7, 0] ++ [5] :
          List Nat).drop 16) = .ok im ∧
      convert_png_image_to_palette_image im ⟨[0, 0, 0, 0], 1, 1, 1, 8, 1, 0⟩ =
        .ok ([0, 0, 0, 0, 1, 0, 1, 0, 1, 0, 8, 0, 1, 0, 0, 0] ++ [9, 8, 7, 0] ++ [5]) :=
  C1_decode_encode_roundtrip_amended
    ([0, 0, 0, 0, 1, 0, 1, 0, 1, 0, 8, 0, 1, 0, 0, 0] ++ [9, 8, 7, 0] ++ [5])
    ⟨[0, 0, 0, 0], 1, 1, 1, 8, 1, 0⟩
    (by decide) (by rfl) (by decide) (by decide) (by decide) (by decide)
    (by decide) (by decide)

/-! ## Toolkit: container-level parsers -/

lemma mapM_cons_ok {α β : Type} {f : α → Except Unit β} {a : α} {l : List α} {b : β}
    {bs : List β} (h1 : f a = .ok b) (h2 : l.mapM f = .ok bs) :
    (a :: l).mapM f = .ok (b :: bs) := by
  rw [List.mapM_cons, h1, ok_bind, h2, ok_bind]
  rfl

lemma take_one_getD (l : List Nat) (h : 0 < l.length) : l.take 1 = [l.getD 0 0] := by
  cases l with
  | nil => simp at h
  | cons a t => simp [List.getD]

lemma getD_drop_zero (l : List Nat) (n : Nat) : (l.drop n).getD 0 0 = l.getD n 0 := by
  rw [List.getD_eq_getElem?_getD, List.getD_eq_getElem?_getD, List.getElem?_drop]
  norm_num

lemma header_parse_build (data : List Nat) (hbytes : ∀ b ∈ data, b < 256)
    (hd : HeaderContainer) (hparse : HeaderParser.parse_data data = some hd) :
    HeaderParser.build_bytes hd = .ok (data.take 20) := by
  have h20 : 20 ≤ data.length := by
    by_contra h
    unfold HeaderParser.parse_data at hparse
    rw [if_neg h] at hparse
    cases hparse
  have hinfo : hd = ⟨data.take 5, data.getD 5 0, (data.drop 6).take 10,
      readU32LE (data.drop 16)⟩ := by
    unfold HeaderParser.parse_data at hparse
    rw [if_pos h20] at hparse
    cases hparse
    rfl
  subst hinfo
  have hdropb : ∀ n : Nat, ∀ b ∈ data.drop n, b < 256 :=
    fun n b hbm => hbytes b (List.mem_of_mem_drop hbm)
  unfold HeaderParser.build_bytes
  rw [if_pos ?hcond]
  case hcond =>
    refine ⟨?_, ?_, ?_, ?_, ?_, ?_⟩
    · rw [List.length_take]
      omega
    · apply List.all_eq_true.mpr
      intro x hx
      exact decide_eq_true (hbytes x (List.mem_of_mem_take hx))
    · exact hbytes _ (getD_mem_of_lt data 5 (by omega))
    · rw [List.length_take, List.length_drop]
      omega
    · apply List.all_eq_true.mpr
      intro x hx
      exact decide_eq_true (hdropb 6 x (List.mem_of_mem_take hx))
    · exact readU32_lt _ (hdropb 16)
  have hdd : ∀ a b : Nat, (data.drop a).drop b = data.drop (a + b) := by
    intro a b
    rw [List.drop_drop]
  have e32 : packU32LE (readU32LE (data.drop 16)) = (data.drop 16).take 4 :=
    packU32_read _ (by rw [List.length_drop]; omega) (hdropb 16)
  have e5 : [data.getD 5 0] = (data.drop 5).take 1 := by
    rw [take_one_getD _ (by rw [List.length_drop]; omega), getD_drop_zero]
  have key : data.take 20 =
      data.take 5 ++ ((data.drop 5).take 1 ++ ((data.drop 6).take 10 ++
        (data.drop 16).take 4)) := by
    have h1 : data.take 20 = data.take 5 ++ (data.drop 5).take 15 := by
      have e : (20 : Nat) = 5 + 15 := rfl
      rw [e, take_add_eq]
    have h2 : (data.drop 5).take 15 = (data.drop 5).take 1 ++ (data.drop 6).take 14 := by
      have e : (15 : Nat) = 1 + 14 := rfl
      rw [e, take_add_eq, hdd 5 1]
    have h3 : (data.drop 6).take 14 = (data.drop 6).take 10 ++ (data.drop 16).take 4 := by
      have e : (14 : Nat) = 10 + 4 := rfl
      rw [e, take_add_eq, hdd 6 10]
    rw [h1, h2, h3]
  show Except.ok (data.take 5 ++ [data.getD 5 0] ++ (data.drop 6).take 10 ++
    packU32LE (readU32LE (data.drop 16))) = Except.ok (data.take 20)
  rw [e32, e5]
  congr 1
  rw [key]
  simp [List.append_assoc]

lemma toc_parse_build (data : List Nat) (hbytes : ∀ b ∈ data, b < 256)
    (e : TOCEntry) (hparse : TOCParser.parse_data data = some e) :
    TOCParser.build_bytes e = .ok (data.take 4) := by
  have h4 : 4 ≤ data.length := by
    by_contra h
    unfold TOCParser.parse_data at hparse
    rw [if_neg h] at hparse
    cases hparse
  have he : e = ⟨readU32LE data⟩ := by
    unfold TOCParser.parse_data at hparse
    rw [if_pos h4] at hparse
    cases hparse
    rfl
  subst he
  unfold TOCParser.build_bytes
  rw [if_pos (readU32_lt _ hbytes)]
  rw [packU32_read data h4 hbytes]

lemma palette_parse_build (data : List Nat) (hbytes : ∀ b ∈ data, b < 256)
    (p : PaletteData) (hparse : PaletteParser.parse_data data = some p) :
    PaletteParser.build_bytes p = .ok (data.take 4) := by
  have h4 : 4 ≤ data.length := by
    by_contra h
    unfold PaletteParser.parse_data at hparse
    rw [if_neg h] at hparse
    cases hparse
  have hp : p = ⟨data.getD 0 0, data.getD 1 0, data.getD 2 0, data.getD 3 0⟩ := by
    unfold PaletteParser.parse_data at hparse
    rw [if_pos h4] at hparse
    cases hparse
    rfl
  subst hp
  unfold PaletteParser.build_bytes
  rw [if_pos ⟨hbytes _ (getD_mem_of_lt data 0 (by omega)),
    hbytes _ (getD_mem_of_lt data 1 (by omega)),
    hbytes _ (getD_mem_of_lt data 2 (by omega)),
    hbytes _ (getD_mem_of_lt data 3 (by omega))⟩]
  rw [take_four_eq data h4]

lemma read_buffer_inv {n : Nat} {s d s' : List Nat}
    (h : read_buffer n s = .ok (d, s')) :
    n ≤ s.length ∧ d = s.take n ∧ s' = s.drop n := by
  unfold read_buffer at h
  by_cases hl : (s.take n).length = n
  · rw [if_pos hl] at h
    cases h
    exact ⟨by rw [List.length_take] at hl; omega, rfl, rfl⟩
  · rw [if_neg hl] at h
    cases h

lemma header_read_inv {s : List Nat} {hd : HeaderContainer} {s' : List Nat}
    (h : HeaderParser.read s = .ok (hd, s')) :
    20 ≤ s.length ∧ s' = s.drop 20 ∧ HeaderParser.parse_data (s.take 20) = some hd := by
  unfold HeaderParser.read at h
  obtain ⟨⟨d, s₁⟩, hrb, hg⟩ := except_bind_ok h
  obtain ⟨hn, rfl, rfl⟩ := read_buffer_inv hrb
  have hg' : (match HeaderParser.parse_data (s.take 20) with
      | some x => (Except.ok (x, s.drop 20) : Except Unit (HeaderContainer × List Nat))
      | none => .error ()) = .ok (hd, s') := hg
  cases hp : HeaderParser.parse_data (s.take 20) with
  | none =>
    rw [hp] at hg'
    cases hg'
  | some x =>
    rw [hp] at hg'
    cases hg'
    exact ⟨hn, rfl, rfl⟩

lemma toc_read_inv {s : List Nat} {e : TOCEntry} {s' : List Nat}
    (h : TOCParser.read s = .ok (e, s')) :
    4 ≤ s.length ∧ s' = s.drop 4 ∧ TOCParser.parse_data (s.take 4) = some e := by
  unfold TOCParser.read at h
  obtain ⟨⟨d, s₁⟩, hrb, hg⟩ := except_bind_ok h
  obtain ⟨hn, rfl, rfl⟩ := read_buffer_inv hrb
  have hg' : (match TOCParser.parse_data (s.take 4) with
      | some x => (Except.ok (x, s.drop 4) : Except Unit (TOCEntry × List Nat))
      | none => .error ()) = .ok (e, s') := hg
  cases hp : TOCParser.parse_data (s.take 4) with
  | none =>
    rw [hp] at hg'
    cases hg'
  | some x =>
    rw [hp] at hg'
    cases hg'
    exact ⟨hn, rfl, rfl⟩

lemma parse_resource_inv {d : List Nat} {idx : Nat} {r : Resource}
    (h : parse_resource d idx = .ok r) :
    16 ≤ d.length ∧ ∃ info, ImageHeaderParser.parse_data d = some info ∧
      r = ⟨info, d.drop 16, idx⟩ := by
  unfold parse_resource at h
  cases hp : ImageHeaderParser.parse_data d with
  | none =>
    rw [hp] at h
    cases h
  | some info =>
    rw [hp] at h
    obtain ⟨rb, hrb, hok⟩ := except_bind_ok h
    have h16 : 16 ≤ d.length := by
      by_contra hc
      unfold ImageHeaderParser.parse_data at hp
      rw [if_neg hc] at hp
      cases hp
    cases hok
    exact ⟨h16, info, rfl, rfl⟩

lemma repack_inv {rf : ResFile} {pngs : List PILImage} {out : List Nat}
    (h : repack_res_file rf pngs = .ok out) :
    ∃ hd tocs imgs, HeaderParser.build_bytes rf.header = .ok hd ∧
      rf.toc.mapM TOCParser.build_bytes = .ok tocs ∧
      (rf.resources.zip pngs).mapM
        (fun p => convert_png_image_to_palette_image p.2 p.1.image_info) = .ok imgs ∧
      out = hd ++ tocs.flatten ++ imgs.flatten := by
  unfold repack_res_file at h
  obtain ⟨hd, h1, h⟩ := except_bind_ok h
  obtain ⟨tocs, h2, h⟩ := except_bind_ok h
  obtain ⟨imgs, h3, h⟩ := except_bind_ok h
  cases h
  exact ⟨hd, tocs, imgs, h1, h2, h3, rfl⟩

lemma parse_res_file_inv {s : List Nat} {rf : ResFile}
    (h : parse_res_file s = .ok rf) :
    ∃ header s₁ toc s₂ rs s₃ last,
      HeaderParser.read s = .ok (header, s₁) ∧
      readTOC header.res_count s₁ = .ok (toc, s₂) ∧
      readResources (toc.drop 1) 0 0 s₂ = .ok (rs, s₃) ∧
      parse_resource s₃ toc.length = .ok last ∧
      rf = ⟨header, toc, rs ++ [last]⟩ := by
  unfold parse_res_file at h
  obtain ⟨⟨header, s₁⟩, h1, h⟩ := except_bind_ok h
  obtain ⟨⟨toc, s₂⟩, h2, h⟩ := except_bind_ok h
  obtain ⟨⟨rs, s₃⟩, h3, h⟩ := except_bind_ok h
  obtain ⟨last, h4, h⟩ := except_bind_ok h
  cases h
  exact ⟨header, s₁, toc, s₂, rs, s₃, last, h1, h2, h3, h4, rfl⟩

lemma readTOC_struct : ∀ (n : Nat) (s : List Nat) (toc : List TOCEntry) (s' : List Nat),
    readTOC n s = .ok (toc, s') →
    toc.length = n ∧ 4 * n ≤ s.length ∧ s' = s.drop (4 * n) := by
  intro n
  induction n with
  | zero =>
    intro s toc s' h
    cases h
    simp
  | succ m ih =>
    intro s toc s' h
    unfold readTOC at h
    obtain ⟨⟨e, s₁⟩, h1, h⟩ := except_bind_ok h
    obtain ⟨⟨es, s₂⟩, h2, h⟩ := except_bind_ok h
    cases h
    obtain ⟨h4, rfl, _⟩ := toc_read_inv h1
    obtain ⟨hlen, hle, rfl⟩ := ih _ _ _ h2
    refine ⟨by simp [hlen], ?_, ?_⟩
    · rw [List.length_drop] at hle
      omega
    · rw [List.drop_drop]
      congr 1
      omega

lemma readTOC_builds : ∀ (n : Nat) (s : List Nat), (∀ b ∈ s, b < 256) →
    ∀ (toc : List TOCEntry) (s' : List Nat), readTOC n s = .ok (toc, s') →
    ∃ chunks, toc.mapM TOCParser.build_bytes = .ok chunks ∧
      chunks.flatten = s.take (4 * n) := by
  intro n
  induction n with
  | zero =>
    intro s _ toc s' h
    cases h
    exact ⟨[], rfl, rfl⟩
  | succ m ih =>
    intro s hb toc s' h
    unfold readTOC at h
    obtain ⟨⟨e, s₁⟩, h1, h⟩ := except_bind_ok h
    obtain ⟨⟨es, s₂⟩, h2, h⟩ := except_bind_ok h
    cases h
    obtain ⟨h4, rfl, hp⟩ := toc_read_inv h1
    obtain ⟨chunks, hmm, hflat⟩ := ih _ (fun b hbm => hb b (List.mem_of_mem_drop hbm)) _ _ h2
    have hbe : TOCParser.build_bytes e = .ok (s.take 4) := by
      have h0 := toc_parse_build _ (fun b hbm => hb b (List.mem_of_mem_take hbm)) e hp
      simpa [List.take_take] using h0
    refine ⟨s.take 4 :: chunks, mapM_cons_ok hbe hmm, ?_⟩
    show s.take 4 ++ chunks.flatten = s.take (4 * (m + 1))
    rw [hflat]
    have e1 : 4 * (m + 1) = 4 + 4 * m := by omega
    rw [e1, take_add_eq]

/-- C8: every record kind (Header, TOCEntry, ImageHeader, PaletteEntry) uses its
format descriptor symmetrically: parsing any byte string of the record's declared
total width succeeds and rebuilding the parsed record reproduces the bytes
exactly; consequently, for every successfully parsed container, repacking writes
the Header and all `res_count` TOC entries back byte-for-byte identical to the
input container's first `20 + 4 * res_count` bytes. -/
theorem C8_repack_header_toc_roundtrip :
    (∀ data : List Nat, data.length = 20 → (∀ b ∈ data, b < 256) →
      ∃ r, HeaderParser.parse_data data = some r ∧
        HeaderParser.build_bytes r = .ok data) ∧
    (∀ data : List Nat, data.length = 4 → (∀ b ∈ data, b < 256) →
      ∃ r, TOCParser.parse_data data = some r ∧
        TOCParser.build_bytes r = .ok data) ∧
    (∀ data : List Nat, data.length = 16 → (∀ b ∈ data, b < 256) →
      ∃ r, ImageHeaderParser.parse_data data = some r ∧
        ImageHeaderParser.build_bytes r = .ok data) ∧
    (∀ data : List Nat, data.length = 4 → (∀ b ∈ data, b < 256) →
      ∃ r, PaletteParser.parse_data data = some r ∧
        PaletteParser.build_bytes r = .ok data) ∧
    (∀ (s : List Nat) (rf : ResFile) (pngs : List PILImage) (out : List Nat),
      (∀ b ∈ s, b < 256) → parse_res_file s = .ok rf →
      repack_res_file rf pngs = .ok out →
      out.take (20 + 4 * rf.header.res_count) =
        s.take (20 + 4 * rf.header.res_count)) := by
  refine ⟨?_, ?_, ?_, ?_, ?_⟩
  · intro data hlen hb
    have hp : HeaderParser.parse_data data = some ⟨data.take 5, data.getD 5 0,
        (data.drop 6).take 10, readU32LE (data.drop 16)⟩ := by
      unfold HeaderParser.parse_data
      rw [if_pos (by omega)]
    refine ⟨_, hp, ?_⟩
    have h0 := header_parse_build data hb _ hp
    rwa [List.take_of_length_le (show data.length ≤ 20 from by omega)] at h0
  · intro data hlen hb
    have hp : TOCParser.parse_data data = some ⟨readU32LE data⟩ := by
      unfold TOCParser.parse_data
      rw [if_pos (by omega)]
    refine ⟨_, hp, ?_⟩
    have h0 := toc_parse_build data hb _ hp
    rwa [List.take_of_length_le (show data.length ≤ 4 from by omega)] at h0
  · intro data hlen hb
    have hp : ImageHeaderParser.parse_data data = some ⟨data.take 4,
        readU16LE (data.drop 4), readU16LE (data.drop 6), readU16LE (data.drop 8),
        readU16LE (data.drop 10), readU16LE (data.drop 12),
        readU16LE (data.drop 14)⟩ := by
      unfold ImageHeaderParser.parse_data
      rw [if_pos (by omega)]
    refine ⟨_, hp, ?_⟩
    have h0 := imageHeader_parse_build data hb _ hp
    rwa [List.take_of_length_le (show data.length ≤ 16 from by omega)] at h0
  · intro data hlen hb
    have hp : PaletteParser.parse_data data = some ⟨data.getD 0 0, data.getD 1 0,
        data.getD 2 0, data.getD 3 0⟩ := by
      unfold PaletteParser.parse_data
      rw [if_pos (by omega)]
    refine ⟨_, hp, ?_⟩
    have h0 := palette_parse_build data hb _ hp
    rwa [List.take_of_length_le (show data.length ≤ 4 from by omega)] at h0
  · intro s rf pngs out hb hparse hrepack
    obtain ⟨header, s₁, toc, s₂, rs, s₃, last, h1, h2, h3, h4, hrf⟩ :=
      parse_res_file_inv hparse
    obtain ⟨h20, rfl, hpd⟩ := header_read_inv h1
    obtain ⟨htlen, h4n, rfl⟩ := readTOC_struct _ _ _ _ h2
    obtain ⟨chunks, hmm, hflat⟩ :=
      readTOC_builds _ _ (fun b hbm => hb b (List.mem_of_mem_drop hbm)) _ _ h2
    obtain ⟨hd, tocs, imgs, hbh, hbt, hbi, rfl⟩ := repack_inv hrepack
    have hhead : rf.header = header := by rw [hrf]
    have htoc : rf.toc = toc := by rw [hrf]
    rw [hhead] at hbh
    rw [htoc] at hbt
    rw [hhead]
    have hbh2 : HeaderParser.build_bytes header = .ok (s.take 20) := by
      have h0 := header_parse_build (s.take 20)
        (fun b hbm => hb b (List.mem_of_mem_take hbm)) header hpd
      simpa [List.take_take] using h0
    rw [hbh2] at hbh
    cases hbh
    rw [hmm] at hbt
    cases hbt
    have hlhd : (s.take 20).length = 20 := by
      rw [List.length_take]
      omega
    rw [List.length_drop] at h4n
    have hlfl : chunks.flatten.length = 4 * header.res_count := by
      rw [hflat, List.length_take, List.length_drop]
      omega
    rw [List.append_assoc]
    have hL : (s.take 20 ++ (chunks.flatten ++ imgs.flatten)).take
        (20 + 4 * header.res_count) =
        s.take 20 ++ (chunks.flatten ++ imgs.flatten).take (4 * header.res_count) := by
      conv_lhs =>
        rw [show (20 : Nat) + 4 * header.res_count =
          (s.take 20).length + 4 * header.res_count from by rw [hlhd]]
      exact take_append_add _ _ _
    have hM : (chunks.flatten ++ imgs.flatten).take (4 * header.res_count) =
        chunks.flatten := by
      rw [take_append_of_le (by omega)]
      rw [hflat, List.take_take]
      simp
    calc ((s.take 20 ++ (chunks.flatten ++ imgs.flatten)).take (20 + 4 * header.res_count)) = s.take 20 ++ (chunks.flatten ++ imgs.flatten).take (4 * header.res_count) := hL
      _ = s.take 20 ++ chunks.flatten := by rw [hM]
      _ = s.take (20 + 4 * header.res_count) := by rw [hflat, ← take_add_eq]

/-- C8 witness: the record round trip at concrete byte strings of each record
kind, and the repack prefix identity at a concrete 60-byte container with two
resources, whose repack output equals the input container. -/
theorem C8_repack_header_toc_roundtrip_witness :
    (∃ r, HeaderParser.parse_data (List.replicate 20 3) = some r ∧
      HeaderParser.build_bytes r = .ok (List.replicate 20 3)) ∧
    (∃ r, TOCParser.parse_data [1, 2, 3, 4] = some r ∧
      TOCParser.build_bytes r = .ok [1, 2, 3, 4]) ∧
    (∃ r, ImageHeaderParser.parse_data (List.replicate 16 1) = some r ∧
      ImageHeaderParser.build_bytes r = .ok (List.replicate 16 1)) ∧
    (∃ r, PaletteParser.parse_data [9, 8, 7, 6] = some r ∧
      PaletteParser.build_bytes r = .ok [9, 8, 7, 6]) ∧
    (List.replicate 16 0 ++ [2, 0, 0, 0, 0, 0, 0, 0, 16, 0, 0, 0] ++
        List.replicate 32 (0 : Nat)).take 28 =
      (List.replicate 16 0 ++ [2, 0, 0, 0, 0, 0, 0, 0, 16, 0, 0, 0] ++
        List.replicate 32 (0 : Nat)).take 28 :=
  ⟨C8_repack_header_toc_roundtrip.1 _ (by decide) (by decide),
   C8_repack_header_toc_roundtrip.2.1 _ (by decide) (by decide),
   C8_repack_header_toc_roundtrip.2.2.1 _ (by decide) (by decide),
   C8_repack_header_toc_roundtrip.2.2.2.1 _ (by decide) (by decide),
   C8_repack_header_toc_roundtrip.2.2.2.2
     (List.replicate 16 0 ++ [2, 0, 0, 0, 0, 0, 0, 0, 16, 0, 0, 0] ++
       List.replicate 32 (0 : Nat))
     ⟨⟨[0, 0, 0, 0, 0], 0, [0, 0, 0, 0, 0, 0, 0, 0, 0, 0], 2⟩, [⟨0⟩, ⟨16⟩],
       [⟨⟨[0, 0, 0, 0], 0, 0, 0, 0, 0, 0⟩, [], 0⟩,
        ⟨⟨[0, 0, 0, 0], 0, 0, 0, 0, 0, 0⟩, [], 2⟩]⟩
     [⟨0, 0, [], []⟩, ⟨0, 0, [], []⟩]
     (List.replicate 16 0 ++ [2, 0, 0, 0, 0, 0, 0, 0, 16, 0, 0, 0] ++
       List.replicate 32 (0 : Nat))
     (by decide) (by rfl) (by rfl)⟩

/-! ## Toolkit: the resource loop -/

lemma streamRead_fst (s : List Nat) (n : Int) :
    (streamRead s n).1 = if n < 0 then s else s.take n.toNat := by
  unfold streamRead
  split <;> rfl

lemma streamRead_snd (s : List Nat) (n : Int) :
    (streamRead s n).2 = if n < 0 then [] else s.drop n.toNat := by
  unfold streamRead
  split <;> rfl

lemma readResources_cons (e : TOCEntry) (rest : List TOCEntry) (prev : Int)
    (idx : Nat) (s : List Nat) :
    readResources (e :: rest) prev idx s =
      (parse_resource (streamRead s ((e.abs_offset : Int) - prev)).1 idx >>= fun r =>
        (readResources rest (e.abs_offset : Int) (idx + 1)
          (streamRead s ((e.abs_offset : Int) - prev)).2) >>= fun p =>
        .ok (r :: p.1, p.2)) := rfl

lemma readResources_sublen : ∀ (es : List TOCEntry) (prev : Int) (idx : Nat)
    (s : List Nat) (rs : List Resource) (s' : List Nat),
    readResources es prev idx s = .ok (rs, s') → s'.length ≤ s.length := by
  intro es
  induction es with
  | nil =>
    intro prev idx s rs s' h
    cases h
    exact Nat.le_refl _
  | cons e rest ih =>
    intro prev idx s rs s' h
    rw [readResources_cons] at h
    obtain ⟨r, h1, h⟩ := except_bind_ok h
    obtain ⟨⟨rs₂, s₂⟩, h2, h⟩ := except_bind_ok h
    cases h
    have hle := ih _ _ _ _ _ h2
    have hsnd : (streamRead s ((e.abs_offset : Int) - prev)).2.length ≤ s.length := by
      rw [streamRead_snd]
      split
      · simp
      · rw [List.length_drop]
        omega
    exact Nat.le_trans hle hsnd

/-- On success with a non-empty remainder, every read of the resource loop is
exact: offsets are monotone, each span is fully available, resource `j` is
parsed from the span `[p_j, e_j)` (with `p_0 = prev` and `p_j = e_{j-1}`), and
the remainder is the stream past the last offset. -/
lemma readResources_ok_spec (dRes : Resource) :
    ∀ (es : List TOCEntry) (prev idx : Nat) (s : List Nat)
      (rs : List Resource) (s' : List Nat),
      readResources es (prev : Int) idx s = .ok (rs, s') → s' ≠ [] →
      rs.length = es.length ∧
      (∀ j, j < es.length →
        prev ≤ (((⟨prev⟩ : TOCEntry) :: es).getD j ⟨0⟩).abs_offset ∧
        (((⟨prev⟩ : TOCEntry) :: es).getD j ⟨0⟩).abs_offset ≤
          (es.getD j ⟨0⟩).abs_offset ∧
        (es.getD j ⟨0⟩).abs_offset - prev ≤ s.length ∧
        parse_resource
          ((s.drop ((((⟨prev⟩ : TOCEntry) :: es).getD j ⟨0⟩).abs_offset - prev)).take
            ((es.getD j ⟨0⟩).abs_offset -
              (((⟨prev⟩ : TOCEntry) :: es).getD j ⟨0⟩).abs_offset))
          (idx + j) = .ok (rs.getD j dRes)) ∧
      s' = s.drop ((((⟨prev⟩ : TOCEntry) :: es).getD es.length ⟨0⟩).abs_offset - prev) := by
  intro es
  induction es with
  | nil =>
    intro prev idx s rs s' h _
    cases h
    refine ⟨rfl, fun j hj => absurd hj (by simp), ?_⟩
    simp
  | cons e rest ih =>
    intro prev idx s rs s' h hne
    rw [readResources_cons] at h
    obtain ⟨r, h1, h⟩ := except_bind_ok h
    obtain ⟨⟨rs₂, s₂⟩, h2, h⟩ := except_bind_ok h
    cases h
    have hs₂s : s₂.length ≤ (streamRead s ((e.abs_offset : Int) - prev)).2.length :=
      readResources_sublen _ _ _ _ _ _ h2
    have hs₂ne : (streamRead s ((e.abs_offset : Int) - prev)).2 ≠ [] := by
      intro hnil
      rw [hnil, List.length_nil, Nat.le_zero] at hs₂s
      exact hne (List.eq_nil_of_length_eq_zero hs₂s)
    have hnneg : ¬ ((e.abs_offset : Int) - (prev : Int) < 0) := by
      intro hlt
      apply hs₂ne
      rw [streamRead_snd, if_pos hlt]
    have hprev : prev ≤ e.abs_offset := by omega
    have htn : ((e.abs_offset : Int) - (prev : Int)).toNat = e.abs_offset - prev :=
      Int.toNat_sub _ _
    have hs1 : (streamRead s ((e.abs_offset : Int) - prev)).2 =
        s.drop (e.abs_offset - prev) := by
      rw [streamRead_snd, if_neg hnneg, htn]
    have hd : (streamRead s ((e.abs_offset : Int) - prev)).1 =
        s.take (e.abs_offset - prev) := by
      rw [streamRead_fst, if_neg hnneg, htn]
    have hav : e.abs_offset - prev < s.length := by
      by_contra hc
      apply hs₂ne
      rw [hs1]
      apply List.drop_eq_nil_of_le
      omega
    rw [hs1] at h2
    rw [hd] at h1
    obtain ⟨hlen₂, hj₂, hs'₂⟩ :=
      ih e.abs_offset (idx + 1) (s.drop (e.abs_offset - prev)) rs₂ s₂ h2 hne
    have habsL : ∀ j', ((e :: rest).getD j' ⟨0⟩).abs_offset =
        (((⟨e.abs_offset⟩ : TOCEntry) :: rest).getD j' ⟨0⟩).abs_offset := by
      intro j'
      cases j' <;> simp
    refine ⟨by simp [hlen₂], ?_, ?_⟩
    · intro j hj
      cases j with
      | zero =>
        refine ⟨by simp, by simpa using hprev, by simp; omega, ?_⟩
        simp only [List.getD_cons_zero, Nat.sub_self, List.drop_zero, Nat.add_zero]
        exact h1
      | succ j' =>
        have hj' : j' < rest.length := by simpa using hj
        obtain ⟨c1, c2, c3, c4⟩ := hj₂ j' hj'
        simp only [List.getD_cons_succ]
        rw [habsL j']
        rw [List.length_drop] at c3
        refine ⟨by omega, c2, by omega, ?_⟩
        rw [List.drop_drop] at c4
        have e2 : e.abs_offset - prev +
            ((((⟨e.abs_offset⟩ : TOCEntry) :: rest).getD j' ⟨0⟩).abs_offset -
              e.abs_offset) =
            (((⟨e.abs_offset⟩ : TOCEntry) :: rest).getD j' ⟨0⟩).abs_offset - prev := by
          omega
        rw [e2] at c4
        have e3 : idx + 1 + j' = idx + (j' + 1) := by omega
        rw [e3] at c4
        exact c4
    · have hlast : e.abs_offset ≤
          (((⟨e.abs_offset⟩ : TOCEntry) :: rest).getD rest.length ⟨0⟩).abs_offset := by
        cases rest with
        | nil => simp
        | cons f rest' =>
          have hc := hj₂ rest'.length (by simp)
          simpa using le_trans hc.1 hc.2.1
      rw [hs'₂, List.drop_drop]
      simp only [List.length_cons, List.getD_cons_succ]
      rw [habsL rest.length]
      congr 1
      omega

lemma getD_append_left {α : Type} (A B : List α) (i : Nat) (d : α) (h : i < A.length) :
    (A ++ B).getD i d = A.getD i d := by
  rw [List.getD_eq_getElem?_getD, List.getD_eq_getElem?_getD, List.getElem?_append,
    if_pos h]

lemma getD_append_last {α : Type} (A : List α) (x d : α) :
    (A ++ [x]).getD A.length d = x := by
  rw [List.getD_eq_getElem?_getD, List.getElem?_append_right (le_refl _)]
  simp

/-! ## Claim C4: TOC-derived resource spans -/

/-- C4 counterexample: a container whose header declares `res_count = 0` still
parses successfully and produces one resource (the unconditional trailing
`buffer.read()`), so "exactly N resources are produced" fails at N = 0. -/
theorem C4_counterexample :
    parse_res_file (List.replicate 16 0 ++ [0, 0, 0, 0] ++ List.replicate 16 0) =
      .ok ⟨⟨[0, 0, 0, 0, 0], 0, List.replicate 10 0, 0⟩, [],
        [⟨⟨[0, 0, 0, 0], 0, 0, 0, 0, 0, 0⟩, [], 0⟩]⟩ ∧
    ([⟨⟨[0, 0, 0, 0], 0, 0, 0, 0, 0, 0⟩, [], 0⟩] : List Resource).length ≠
      (⟨[0, 0, 0, 0, 0], 0, List.replicate 10 0, 0⟩ : HeaderContainer).res_count :=
  ⟨by rfl, by decide⟩

/-- C4 (amended): for every container that parses successfully with
`res_count ≥ 2`, the TOC has `res_count` entries and exactly `res_count`
resources are produced; the first TOC entry is discarded, resource 0 is parsed
from the bytes `[0, e_1)` of the resource data, resource `i` for
`1 ≤ i ≤ res_count - 2` from `[e_i, e_{i+1})` (offsets are monotone on success),
and the final resource from `e_{res_count - 1}` to end-of-stream (its recorded
index is `res_count`, the length of the TOC).  For `res_count ≤ 1` the parser
still appends the unconditional trailing resource, so the claim's count fails
at `res_count = 0`. -/
theorem C4_resource_spans_amended (s : List Nat) (rf : ResFile)
    (hparse : parse_res_file s = .ok rf) (hN : 2 ≤ rf.header.res_count) :
    rf.toc.length = rf.header.res_count ∧
    rf.resources.length = rf.header.res_count ∧
    (∀ i, 1 ≤ i → i + 2 ≤ rf.header.res_count →
      (rf.toc.getD i ⟨0⟩).abs_offset ≤ (rf.toc.getD (i + 1) ⟨0⟩).abs_offset ∧
      parse_resource
        ((((s.drop 20).drop (4 * rf.header.res_count)).drop
            (rf.toc.getD i ⟨0⟩).abs_offset).take
          ((rf.toc.getD (i + 1) ⟨0⟩).abs_offset - (rf.toc.getD i ⟨0⟩).abs_offset)) i =
        .ok (rf.resources.getD i ⟨⟨[], 0, 0, 0, 0, 0, 0⟩, [], 0⟩)) ∧
    parse_resource
      (((s.drop 20).drop (4 * rf.header.res_count)).take
        (rf.toc.getD 1 ⟨0⟩).abs_offset) 0 =
      .ok (rf.resources.getD 0 ⟨⟨[], 0, 0, 0, 0, 0, 0⟩, [], 0⟩) ∧
    parse_resource
      (((s.drop 20).drop (4 * rf.header.res_count)).drop
        (rf.toc.getD (rf.header.res_count - 1) ⟨0⟩).abs_offset)
      rf.header.res_count =
      .ok (rf.resources.getD (rf.header.res_count - 1)
        ⟨⟨[], 0, 0, 0, 0, 0, 0⟩, [], 0⟩) := by
  obtain ⟨header, s₁, toc, s₂x, rs, s₃, last, h1, h2, h3, h4, hrf⟩ :=
    parse_res_file_inv hparse
  obtain ⟨h20, rfl, hpd⟩ := header_read_inv h1
  obtain ⟨htlen, h4n, rfl⟩ := readTOC_struct _ _ _ _ h2
  have hhead : rf.header = header := by rw [hrf]
  have htoc : rf.toc = toc := by rw [hrf]
  have hres : rf.resources = rs ++ [last] := by rw [hrf]
  rw [hhead] at hN
  rw [hhead, htoc, hres]
  obtain ⟨h16, _⟩ := parse_resource_inv h4
  have hs₃ne : s₃ ≠ [] := by
    intro hnil
    rw [hnil] at h16
    simp at h16
  have h3' : readResources (toc.drop 1) (((0 : Nat) : Int)) 0
      ((s.drop 20).drop (4 * header.res_count)) = .ok (rs, s₃) := h3
  obtain ⟨hrslen, hj, hs₃⟩ :=
    readResources_ok_spec ⟨⟨[], 0, 0, 0, 0, 0, 0⟩, [], 0⟩ (toc.drop 1) 0 0 _ rs s₃
      h3' hs₃ne
  have hdlen : (toc.drop 1).length = header.res_count - 1 := by
    rw [List.length_drop, htlen]
  have hdrop1 : ∀ (i : Nat), (toc.drop 1).getD i ⟨0⟩ = toc.getD (i + 1) ⟨0⟩ := by
    intro i
    cases toc with
    | nil => simp
    | cons a t => simp [List.getD_cons_succ]
  have hrslen' : rs.length = header.res_count - 1 := by rw [hrslen, hdlen]
  refine ⟨by rw [htlen], ?_, ?_, ?_, ?_⟩
  · simp only [List.length_append, List.length_cons, List.length_nil, hrslen']
    omega
  · intro i hi1 hi2
    obtain ⟨j, rfl⟩ : ∃ j, i = j + 1 := ⟨i - 1, by omega⟩
    have hjlt : j + 1 < (toc.drop 1).length := by omega
    have c2 := (hj (j + 1) hjlt).2.1
    have c4 := (hj (j + 1) hjlt).2.2.2
    simp only [List.getD_cons_succ] at c2 c4
    rw [hdrop1 j, hdrop1 (j + 1)] at c2
    rw [hdrop1 j, hdrop1 (j + 1)] at c4
    simp only [Nat.sub_zero, Nat.zero_add] at c4
    rw [getD_append_left _ _ _ _ (by omega)]
    exact ⟨c2, c4⟩
  · have h0lt : 0 < (toc.drop 1).length := by omega
    have c4 := (hj 0 h0lt).2.2.2
    simp only [List.getD_cons_zero, Nat.sub_zero, Nat.zero_add, List.drop_zero] at c4
    rw [hdrop1 0] at c4
    rw [getD_append_left _ _ _ _ (by omega)]
    exact c4
  · have hidx : (toc.drop 1).length = (header.res_count - 2) + 1 := by omega
    rw [hidx] at hs₃
    simp only [List.getD_cons_succ] at hs₃
    rw [hdrop1 (header.res_count - 2)] at hs₃
    have hidx2 : header.res_count - 2 + 1 = header.res_count - 1 := by omega
    rw [hidx2] at hs₃
    rw [Nat.sub_zero] at hs₃
    rw [← hs₃]
    rw [htlen] at h4
    have hg : (rs ++ [last]).getD (header.res_count - 1)
        (⟨⟨[], 0, 0, 0, 0, 0, 0⟩, [], 0⟩ : Resource) = last := by
      rw [show header.res_count - 1 = rs.length from by omega]
      exact getD_append_last _ _ _
    rw [hg]
    exact h4

/-- C4 witness: the amended span property at a concrete 60-byte container with
`res_count = 2`, TOC offsets 0 and 16, and two 16-byte all-zero resources. -/
theorem C4_resource_spans_amended_witness :
    ([⟨0⟩, ⟨16⟩] : List TOCEntry).length = 2 ∧
    ([⟨⟨[0, 0, 0, 0], 0, 0, 0, 0, 0, 0⟩, [], 0⟩,
      ⟨⟨[0, 0, 0, 0], 0, 0, 0, 0, 0, 0⟩, [], 2⟩] : List Resource).length = 2 ∧
    (∀ i, 1 ≤ i → i + 2 ≤ 2 →
      (([⟨0⟩, ⟨16⟩] : List TOCEntry).getD i ⟨0⟩).abs_offset ≤
        (([⟨0⟩, ⟨16⟩] : List TOCEntry).getD (i + 1) ⟨0⟩).abs_offset ∧
      parse_resource
        (((((List.replicate 16 0 ++ [2, 0, 0, 0, 0, 0, 0, 0, 16, 0, 0, 0] ++
            List.replicate 32 (0 : Nat)).drop 20).drop 8).drop
            (([⟨0⟩, ⟨16⟩] : List TOCEntry).getD i ⟨0⟩).abs_offset).take
          ((([⟨0⟩, ⟨16⟩] : List TOCEntry).getD (i + 1) ⟨0⟩).abs_offset -
            (([⟨0⟩, ⟨16⟩] : List TOCEntry).getD i ⟨0⟩).abs_offset)) i =
        .ok (([⟨⟨[0, 0, 0, 0], 0, 0, 0, 0, 0, 0⟩, [], 0⟩,
          ⟨⟨[0, 0, 0, 0], 0, 0, 0, 0, 0, 0⟩, [], 2⟩] : List Resource).getD i
          ⟨⟨[], 0, 0, 0, 0, 0, 0⟩, [], 0⟩)) ∧
    parse_resource
      ((((List.replicate 16 0 ++ [2, 0, 0, 0, 0, 0, 0, 0, 16, 0, 0, 0] ++
          List.replicate 32 (0 : Nat)).drop 20).drop 8).take 16) 0 =
      .ok ⟨⟨[0, 0, 0, 0], 0, 0, 0, 0, 0, 0⟩, [], 0⟩ ∧
    parse_resource
      ((((List.replicate 16 0 ++ [2, 0, 0, 0, 0, 0, 0, 0, 16, 0, 0, 0] ++
          List.replicate 32 (0 : Nat)).drop 20).drop 8).drop 16) 2 =
      .ok ⟨⟨[0, 0, 0, 0], 0, 0, 0, 0, 0, 0⟩, [], 2⟩ :=
  C4_resource_spans_amended
    (List.replicate 16 0 ++ [2, 0, 0, 0, 0, 0, 0, 0, 16, 0, 0, 0] ++
      List.replicate 32 (0 : Nat))
    ⟨⟨[0, 0, 0, 0, 0], 0, [0, 0, 0, 0, 0, 0, 0, 0, 0, 0], 2⟩, [⟨0⟩, ⟨16⟩],
      [⟨⟨[0, 0, 0, 0], 0, 0, 0, 0, 0, 0⟩, [], 0⟩,
       ⟨⟨[0, 0, 0, 0], 0, 0, 0, 0, 0, 0⟩, [], 2⟩]⟩
    (by rfl) (by decide)

/-! ## Claim C5: short reads fail -/

lemma except_eq_error {α : Type} (x : Except Unit α) (h : ∀ a, x ≠ .ok a) :
    x = .error () := by
  cases x with
  | error e =>
    cases e
    rfl
  | ok a => exact absurd rfl (h a)

/-- On success the resource loop consumed at least up to the last TOC offset,
unless it drained the stream completely. -/
lemma readResources_consume : ∀ (es : List TOCEntry) (prev idx : Nat) (s : List Nat)
    (rs : List Resource) (s' : List Nat),
    readResources es (prev : Int) idx s = .ok (rs, s') →
    s' = [] ∨ s'.length +
      ((((⟨prev⟩ : TOCEntry) :: es).getD es.length ⟨0⟩).abs_offset - prev) ≤ s.length := by
  intro es
  induction es with
  | nil =>
    intro prev idx s rs s' h
    cases h
    right
    simp
  | cons e rest ih =>
    intro prev idx s rs s' h
    rw [readResources_cons] at h
    obtain ⟨r, h1, h⟩ := except_bind_ok h
    obtain ⟨⟨rs₂, s₂⟩, h2, h⟩ := except_bind_ok h
    cases h
    have habsL : ((e :: rest).getD rest.length ⟨0⟩).abs_offset =
        (((⟨e.abs_offset⟩ : TOCEntry) :: rest).getD rest.length ⟨0⟩).abs_offset := by
      cases rest <;> simp
    by_cases hneg : ((e.abs_offset : Int) - (prev : Int) < 0)
    · have hs1 : (streamRead s ((e.abs_offset : Int) - prev)).2 = [] := by
        rw [streamRead_snd, if_pos hneg]
      rw [hs1] at h2
      have hsub := readResources_sublen _ _ _ _ _ _ h2
      left
      exact List.eq_nil_of_length_eq_zero (by simpa using hsub)
    · have hprev : prev ≤ e.abs_offset := by omega
      have htn : ((e.abs_offset : Int) - (prev : Int)).toNat = e.abs_offset - prev :=
        Int.toNat_sub _ _
      have hs1 : (streamRead s ((e.abs_offset : Int) - prev)).2 =
          s.drop (e.abs_offset - prev) := by
        rw [streamRead_snd, if_neg hneg, htn]
      rw [hs1] at h2
      rcases ih _ _ _ _ _ h2 with hleft | hright
      · left
        exact hleft
      · rw [List.length_drop] at hright
        simp only [List.length_cons, List.getD_cons_succ]
        rw [habsL]
        rcases le_or_lt (e.abs_offset - prev) s.length with hc | hc
        · right
          omega
        · left
          exact List.eq_nil_of_length_eq_zero (by omega)

/-- C5: every short read fails rather than returning partial data: a stream
shorter than the 20-byte header errors; a header whose `res_count` demands more
4-byte TOC entries than the stream holds errors; and with header and TOC read,
a stream whose resource data cannot cover the last TOC offset plus a final
16-byte image header errors (the model collapses Python's single `Exception`
type, which the spec names `TruncatedInputError`, to the one error value). -/
theorem C5_short_reads_fail :
    (∀ s : List Nat, s.length < 20 → parse_res_file s = .error ()) ∧
    (∀ (s : List Nat) (h : HeaderContainer) (s₁ : List Nat),
      HeaderParser.read s = .ok (h, s₁) → s₁.length < 4 * h.res_count →
      parse_res_file s = .error ()) ∧
    (∀ (s : List Nat) (h : HeaderContainer) (s₁ : List Nat) (toc : List TOCEntry)
      (s₂ : List Nat),
      HeaderParser.read s = .ok (h, s₁) → readTOC h.res_count s₁ = .ok (toc, s₂) →
      2 ≤ toc.length →
      s₂.length < 16 + (toc.getD (toc.length - 1) ⟨0⟩).abs_offset →
      parse_res_file s = .error ()) := by
  refine ⟨?_, ?_, ?_⟩
  · intro s hshort
    apply except_eq_error
    intro rf hok
    obtain ⟨header, s₁, toc, s₂, rs, s₃, last, h1, _, _, _, _⟩ := parse_res_file_inv hok
    obtain ⟨h20, _, _⟩ := header_read_inv h1
    omega
  · intro s h s₁ hh hshort
    apply except_eq_error
    intro rf hok
    obtain ⟨header, s₁', toc, s₂, rs, s₃, last, h1, h2, _, _, _⟩ := parse_res_file_inv hok
    rw [hh] at h1
    injection h1 with hp
    injection hp with hA hB
    subst hA
    subst hB
    obtain ⟨_, hle, _⟩ := readTOC_struct _ _ _ _ h2
    omega
  · intro s h s₁ toc s₂ hh ht h2N hshort
    apply except_eq_error
    intro rf hok
    obtain ⟨header, s₁', toc', s₂', rs, s₃, last, h1, h2, h3, h4, _⟩ :=
      parse_res_file_inv hok
    rw [hh] at h1
    injection h1 with hp
    injection hp with hA hB
    subst hA
    subst hB
    rw [ht] at h2
    injection h2 with hq
    injection hq with hC hD
    subst hC
    subst hD
    obtain ⟨h16, _⟩ := parse_resource_inv h4
    have h3' : readResources (toc.drop 1) (((0 : Nat) : Int)) 0 s₂ = .ok (rs, s₃) := h3
    rcases readResources_consume (toc.drop 1) 0 0 s₂ rs s₃ h3' with hnil | hlen
    · rw [hnil] at h16
      simp at h16
    · have hidx : (toc.drop 1).length = (toc.length - 2) + 1 := by
        rw [List.length_drop]
        omega
      rw [hidx] at hlen
      simp only [List.getD_cons_succ] at hlen
      have hdrop1 : (toc.drop 1).getD (toc.length - 2) ⟨0⟩ =
          toc.getD (toc.length - 2 + 1) ⟨0⟩ := by
        cases toc with
        | nil => simp
        | cons a t => simp [List.getD_cons_succ]
      rw [hdrop1] at hlen
      have hidx2 : toc.length - 2 + 1 = toc.length - 1 := by omega
      rw [hidx2] at hlen
      omega

/-- C5 witness: a 2-byte stream fails the header read; a 20-byte header
declaring `res_count = 1` with nothing after it fails the TOC read; and a
container whose TOC points 16 bytes into only 20 remaining resource bytes fails
the final resource parse. -/
theorem C5_short_reads_fail_witness :
    parse_res_file [0, 0] = .error () ∧
    parse_res_file (List.replicate 16 0 ++ [1, 0, 0, 0]) = .error () ∧
    parse_res_file (List.replicate 16 0 ++ [2, 0, 0, 0, 0, 0, 0, 0, 16, 0, 0, 0] ++
      List.replicate 20 0) = .error () :=
  ⟨C5_short_reads_fail.1 [0, 0] (by decide),
   C5_short_reads_fail.2.1 (List.replicate 16 0 ++ [1, 0, 0, 0])
     ⟨[0, 0, 0, 0, 0], 0, [0, 0, 0, 0, 0, 0, 0, 0, 0, 0], 1⟩ [] (by rfl) (by decide),
   C5_short_reads_fail.2.2
     (List.replicate 16 0 ++ [2, 0, 0, 0, 0, 0, 0, 0, 16, 0, 0, 0] ++
       List.replicate 20 0)
     ⟨[0, 0, 0, 0, 0], 0, [0, 0, 0, 0, 0, 0, 0, 0, 0, 0], 2⟩
     ([0, 0, 0, 0, 16, 0, 0, 0] ++ List.replicate 20 0)
     [⟨0⟩, ⟨16⟩] (List.replicate 20 0)
     (by rfl) (by rfl) (by decide) (by decide)⟩

end MibandResHack
